import Mathlib

/-!
Shallow embedding of the aggregation core of `report-builder` (`src/main.rs`):
column resolution, date/weekday normalization, record extraction, and the
weekly/daily summary aggregator.  Machine floating-point (`f64`) is modelled
by the type `F64` below: finite values carry an exact rational (real-number
idealization of rounding), and the IEEE special values NaN, +inf, -inf are
represented explicitly with their propagation rules.
-/

/-! ### Three-way comparisons (model of Rust `Ordering`) -/

/-- Three-way comparison on `Nat`, mirroring Rust `Ord` for unsigned integers. -/
def natCmp (a b : Nat) : Ordering :=
  if a < b then .lt else if b < a then .gt else .eq

/-- Three-way comparison on `Int`, mirroring Rust `Ord` for signed integers. -/
def intCmp (a b : Int) : Ordering :=
  if a < b then .lt else if b < a then .gt else .eq

/-- Lexicographic comparison of character lists by code point.  Models Rust
`str::cmp`, which compares UTF-8 byte sequences; byte-wise order of UTF-8
coincides with code-point order. -/
def strCmpL : List Char → List Char → Ordering
  | [], [] => .eq
  | [], _ :: _ => .lt
  | _ :: _, [] => .gt
  | a :: as, b :: bs =>
    if a.toNat < b.toNat then .lt
    else if b.toNat < a.toNat then .gt
    else strCmpL as bs

/-- Raw lexical comparison of two strings (Rust `String::cmp`). -/
def strCmp (a b : String) : Ordering :=
  strCmpL a.toList b.toList

/-! ### Weekdays and calendar dates -/

/-- Weekday enumeration, modelling `chrono::Weekday`. -/
inductive Weekday where
  | mon | tue | wed | thu | fri | sat | sun
deriving DecidableEq, Repr, Inhabited

/-- Fixed Monday-to-Sunday output order (`WEEKDAY_ORDER` in the source). -/
def WEEKDAY_ORDER : List Weekday :=
  [.mon, .tue, .wed, .thu, .fri, .sat, .sun]

/-- Calendar date, modelling `chrono::NaiveDate` as year/month/day. -/
structure NDate where
  year : Int
  month : Nat
  day : Nat
deriving DecidableEq, Repr, Inhabited

/-- Gregorian leap-year test. -/
def isLeapYear (y : Int) : Bool :=
  (y % 4 == 0 && y % 100 != 0) || y % 400 == 0

/-- Number of days in a month of a given year (0 for an invalid month). -/
def daysInMonth (y : Int) : Nat → Nat
  | 1 => 31
  | 2 => if isLeapYear y then 29 else 28
  | 3 => 31
  | 4 => 30
  | 5 => 31
  | 6 => 30
  | 7 => 31
  | 8 => 31
  | 9 => 30
  | 10 => 31
  | 11 => 30
  | 12 => 31
  | _ => 0

/-- Build a date when the year/month/day combination is a real calendar date,
modelling `chrono`'s validity check on parsed fields. -/
def NDate.fromYmd (y : Int) (m d : Nat) : Option NDate :=
  if 1 ≤ m ∧ m ≤ 12 ∧ 1 ≤ d ∧ d ≤ daysInMonth y m then some ⟨y, m, d⟩ else none

/-- Chronological comparison of dates (the `Ord` instance of
`chrono::NaiveDate`): lexicographic on year, then month, then day. -/
def dateCmp (x y : NDate) : Ordering :=
  match intCmp x.year y.year with
  | .eq =>
    match natCmp x.month y.month with
    | .eq => natCmp x.day y.day
    | o => o
  | o => o

/-- Offsets of Sakamoto's weekday algorithm. -/
def sakamotoOffsets : List Int := [0, 3, 2, 5, 0, 3, 5, 1, 4, 6, 2, 4]

/-- Weekday of a Gregorian calendar date (Sakamoto's method; index 0 is
Sunday), modelling `chrono::NaiveDate::weekday` via `Datelike`. -/
def NDate.weekday (dt : NDate) : Weekday :=
  let y : Int := if dt.month < 3 then dt.year - 1 else dt.year
  let t : Int := sakamotoOffsets.getD (dt.month - 1) 0
  let idx : Int := (y + Int.fdiv y 4 - Int.fdiv y 100 + Int.fdiv y 400 + t + (dt.day : Int)) % 7
  if idx = 1 then .mon
  else if idx = 2 then .tue
  else if idx = 3 then .wed
  else if idx = 4 then .thu
  else if idx = 5 then .fri
  else if idx = 6 then .sat
  else .sun

/-! ### Date string parsing (model of `chrono::NaiveDate::parse_from_str`) -/

/-- Consume up to `maxW` leading decimal digits, accumulating their value into
`acc`; returns how many digits were consumed, the value, and the rest. -/
def takeDigits : Nat → Nat → List Char → Nat × Nat × List Char
  | 0, acc, s => (0, acc, s)
  | _ + 1, acc, [] => (0, acc, [])
  | maxW + 1, acc, c :: rest =>
    if c.isDigit then
      let (n, v, r) := takeDigits maxW (acc * 10 + (c.toNat - 48)) rest
      (n + 1, v, r)
    else (0, acc, c :: rest)

/-- Scan an unsigned number of at least `minW` and at most `maxW` digits
(greedy), modelling `chrono`'s numeric field scanner. -/
def scanNum (minW maxW : Nat) (s : List Char) : Option (Nat × List Char) :=
  let t := takeDigits maxW 0 s
  if minW ≤ t.1 then some (t.2.1, t.2.2) else none

/-- Scan a `%Y` year field: an optional sign followed by up to four digits. -/
def scanYear (s : List Char) : Option (Int × List Char) :=
  match s with
  | c :: rest =>
    if c = '-' then (scanNum 1 4 rest).map (fun vr => (-(vr.1 : Int), vr.2))
    else if c = '+' then (scanNum 1 4 rest).map (fun vr => ((vr.1 : Int), vr.2))
    else (scanNum 1 4 (c :: rest)).map (fun vr => ((vr.1 : Int), vr.2))
  | [] => none

/-- Consume one expected literal character. -/
def expectChar (c : Char) : List Char → Option (List Char)
  | x :: rest => if x = c then some rest else none
  | [] => none

/-- Parse a full string against the pattern `%Y-%m-%d` (entire input must be
consumed, and the fields must form a valid calendar date). -/
def parseFmtYmd (value : String) : Option NDate :=
  match scanYear value.toList with
  | none => none
  | some (y, r1) =>
    match expectChar '-' r1 with
    | none => none
    | some r2 =>
      match scanNum 1 2 r2 with
      | none => none
      | some (m, r3) =>
        match expectChar '-' r3 with
        | none => none
        | some r4 =>
          match scanNum 1 2 r4 with
          | none => none
          | some (d, r5) =>
            match r5 with
            | [] => NDate.fromYmd y m d
            | _ :: _ => none

/-- Parse a full string against the pattern `%m/%d/%Y`. -/
def parseFmtMdy (value : String) : Option NDate :=
  match scanNum 1 2 value.toList with
  | none => none
  | some (m, r1) =>
    match expectChar '/' r1 with
    | none => none
    | some r2 =>
      match scanNum 1 2 r2 with
      | none => none
      | some (d, r3) =>
        match expectChar '/' r3 with
        | none => none
        | some r4 =>
          match scanYear r4 with
          | none => none
          | some (y, r5) =>
            match r5 with
            | [] => NDate.fromYmd y m d
            | _ :: _ => none

/-- Parse a full string against the pattern `%d/%m/%Y`. -/
def parseFmtDmy (value : String) : Option NDate :=
  match scanNum 1 2 value.toList with
  | none => none
  | some (d, r1) =>
    match expectChar '/' r1 with
    | none => none
    | some r2 =>
      match scanNum 1 2 r2 with
      | none => none
      | some (m, r3) =>
        match expectChar '/' r3 with
        | none => none
        | some r4 =>
          match scanYear r4 with
          | none => none
          | some (y, r5) =>
            match r5 with
            | [] => NDate.fromYmd y m d
            | _ :: _ => none

/-- Attempt the three formats `%Y-%m-%d`, `%m/%d/%Y`, `%d/%m/%Y` in that fixed
order and return the first successful parse (`parse_calendar_date`). -/
def parse_calendar_date (value : String) : Option NDate :=
  match parseFmtYmd value with
  | some date => some date
  | none =>
    match parseFmtMdy value with
    | some date => some date
    | none => parseFmtDmy value

/-! ### Model of `f64` values -/

/-- Model of an `f64` value: a finite value carries an exact rational (the
real-number idealization of binary floating point, with no rounding and no
signed zero), and NaN and the two infinities are explicit. -/
inductive F64 where
  | fin (q : ℚ)
  | nan
  | inf
  | ninf
deriving DecidableEq, Repr, Inhabited

namespace F64

/-- IEEE addition on the model. -/
def add : F64 → F64 → F64
  | .fin a, .fin b => .fin (a + b)
  | .nan, _ => .nan
  | _, .nan => .nan
  | .inf, .ninf => .nan
  | .ninf, .inf => .nan
  | .inf, _ => .inf
  | _, .inf => .inf
  | .ninf, _ => .ninf
  | _, .ninf => .ninf

/-- IEEE negation on the model. -/
def neg : F64 → F64
  | .fin a => .fin (-a)
  | .nan => .nan
  | .inf => .ninf
  | .ninf => .inf

/-- IEEE subtraction on the model. -/
def sub (a b : F64) : F64 := add a (neg b)

/-- IEEE multiplication on the model. -/
def mul : F64 → F64 → F64
  | .fin a, .fin b => .fin (a * b)
  | .nan, _ => .nan
  | _, .nan => .nan
  | .inf, .fin b => if b = 0 then .nan else if 0 < b then .inf else .ninf
  | .fin a, .inf => if a = 0 then .nan else if 0 < a then .inf else .ninf
  | .ninf, .fin b => if b = 0 then .nan else if 0 < b then .ninf else .inf
  | .fin a, .ninf => if a = 0 then .nan else if 0 < a then .ninf else .inf
  | .inf, .inf => .inf
  | .inf, .ninf => .ninf
  | .ninf, .inf => .ninf
  | .ninf, .ninf => .inf

/-- IEEE division on the model (signed zero is not modelled: division of a
nonzero finite value by zero takes the sign of the numerator). -/
def div : F64 → F64 → F64
  | .fin a, .fin b =>
    if b = 0 then (if a = 0 then .nan else if 0 < a then .inf else .ninf)
    else .fin (a / b)
  | .nan, _ => .nan
  | _, .nan => .nan
  | .inf, .fin b => if 0 ≤ b then .inf else .ninf
  | .ninf, .fin b => if 0 ≤ b then .ninf else .inf
  | .fin _, .inf => .fin 0
  | .fin _, .ninf => .fin 0
  | .inf, .inf => .nan
  | .inf, .ninf => .nan
  | .ninf, .inf => .nan
  | .ninf, .ninf => .nan

/-- Model of `f64::max`: if one argument is NaN the other is returned,
otherwise the usual maximum. -/
def maxF : F64 → F64 → F64
  | .nan, b => b
  | a, .nan => a
  | .inf, _ => .inf
  | _, .inf => .inf
  | a, .ninf => a
  | .ninf, b => b
  | .fin a, .fin b => .fin (max a b)

/-- Model of the `f64` comparison `x >= 0.0` (false on NaN, true on +inf). -/
def ge0 : F64 → Bool
  | .fin q => decide (0 ≤ q)
  | .inf => true
  | .nan => false
  | .ninf => false

/-- Boolean test for a finite non-negative value. -/
def isNNfin : F64 → Bool
  | .fin q => decide (0 ≤ q)
  | _ => false

instance : Add F64 := ⟨F64.add⟩
instance : Sub F64 := ⟨F64.sub⟩
instance : Mul F64 := ⟨F64.mul⟩
instance : Div F64 := ⟨F64.div⟩
instance : Neg F64 := ⟨F64.neg⟩

end F64

/-- Sum of a list of `F64` values, folded from the left starting at zero —
exactly the accumulation order of the `+=` loops in the source. -/
def Fsum (l : List F64) : F64 := l.foldl F64.add (F64.fin 0)

/-! ### Day-level records (`DayMetrics`) -/

/-- One participant-day observation (`struct DayMetrics`). -/
structure DayMetrics where
  id : String
  calendar_date : String
  weekday : String
  total_in_min : F64
  total_lig_min : F64
  total_mod_min : F64
  total_vig_min : F64
  sleep_minutes : F64
deriving DecidableEq, Repr, Inhabited

/-- Normalize a free-text weekday label: trim, lowercase, and match against
the fixed table of names and abbreviations (`parse_weekday_name`). -/
def parse_weekday_name (value : String) : Option Weekday :=
  match value.trim.toLower with
  | "mon" | "monday" => some .mon
  | "tue" | "tues" | "tuesday" => some .tue
  | "wed" | "wednesday" => some .wed
  | "thu" | "thur" | "thurs" | "thursday" => some .thu
  | "fri" | "friday" => some .fri
  | "sat" | "saturday" => some .sat
  | "sun" | "sunday" => some .sun
  | _ => none

/-- Resolve the weekday of a record: prefer the weekday derived from a
successfully parsed `calendar_date`, falling back to the free-text label
(`determine_weekday`). -/
def determine_weekday (day : DayMetrics) : Option Weekday :=
  match parse_calendar_date day.calendar_date with
  | some date => some date.weekday
  | none => parse_weekday_name day.weekday

/-- Three-way ordering on day-records (`compare_metrics`): parsed dates
compare chronologically, a parseable date sorts before an unparseable one,
and two unparseable dates fall back to raw lexical string comparison. -/
def compare_metrics (a b : DayMetrics) : Ordering :=
  match parse_calendar_date a.calendar_date, parse_calendar_date b.calendar_date with
  | some left, some right => dateCmp left right
  | some _, none => .lt
  | none, some _ => .gt
  | none, none => strCmp a.calendar_date b.calendar_date

/-- Non-strict order induced by `compare_metrics`, used as the sort relation. -/
def cmLe (a b : DayMetrics) : Prop := compare_metrics a b ≠ Ordering.gt

instance : DecidableRel cmLe := fun a b => by unfold cmLe; infer_instance

/-- Stable sort of day-records by `compare_metrics`, modelling the stable
`Vec::sort_by` of `sort_metrics_by_date`. -/
def sort_metrics_by_date (records : List DayMetrics) : List DayMetrics :=
  records.insertionSort cmLe

/-! ### The aggregator (`compute_weekly_summary`) -/

/-- Derived weekly/daily summary statistics (`struct WeeklySummary`).  The
five-entry arrays are indexed sleep, inactive, light, moderate, vigorous. -/
structure WeeklySummary where
  average_hours : Fin 5 → F64
  weekly_mvpa_minutes : F64
  daily_average_hours : Fin 5 → F64
  daily_mvpa_minutes : F64
  daily_sedentary_hours : F64
  average_sleep_by_weekday : List (Weekday × F64)
deriving Inhabited

/-- Day-record groups that survive the empty-participant filter, in map
iteration order (the `valid_groups` loop). -/
def validGroups (data : List (String × List DayMetrics)) : List (List DayMetrics) :=
  (data.map Prod.snd).filter (fun g => !g.isEmpty)

/-- Minimum of a list of naturals, 0 when empty (`Iterator::min` with
`unwrap_or(0)`). -/
def listMin : List Nat → Nat
  | [] => 0
  | h :: t => t.foldl Nat.min h

/-- The common comparable window size: the minimum day-count over the retained
participants, capped at 7 (`days_to_use = min_days.min(7)`). -/
def daysToUse (data : List (String × List DayMetrics)) : Nat :=
  Nat.min (listMin ((validGroups data).map List.length)) 7

/-- The retained window of one participant: the first `d` records of the
date-sorted sequence. -/
def windowOf (d : Nat) (records : List DayMetrics) : List DayMetrics :=
  (sort_metrics_by_date records).take d

/-- Hour-converted values of the five duration fields of one day, in summary
order (sleep, inactive, light, moderate, vigorous); the `/ 60.0` conversions
of the per-day accumulation loop. -/
def dayHours (day : DayMetrics) : Fin 5 → F64 :=
  ![day.sleep_minutes / F64.fin 60,
    day.total_in_min / F64.fin 60,
    day.total_lig_min / F64.fin 60,
    day.total_mod_min / F64.fin 60,
    day.total_vig_min / F64.fin 60]

/-- Per-participant accumulation over the retained window: the five running
hour totals together with the MVPA minute total (the inner `for day in
records.into_iter().take(days_to_use)` loop). -/
def participantTotals (days_to_use : Nat) (records : List DayMetrics) :
    (Fin 5 → F64) × F64 :=
  (windowOf days_to_use records).foldl
    (fun acc day =>
      (fun i => acc.1 i + dayHours day i,
       acc.2 + (day.total_mod_min + day.total_vig_min)))
    (fun _ => F64.fin 0, F64.fin 0)

/-- One step of the per-weekday sleep accumulation
(`weekday_sleep_totals.entry(weekday).or_insert((0.0, 0))` followed by `+=`). -/
def weekdayStep (m : Weekday → Option (F64 × Nat)) (day : DayMetrics) :
    Weekday → Option (F64 × Nat) :=
  match determine_weekday day with
  | none => m
  | some w => fun w2 =>
    if w2 = w then
      match m w with
      | none => some (F64.fin 0 + day.sleep_minutes / F64.fin 60, 0 + 1)
      | some tc => some (tc.1 + day.sleep_minutes / F64.fin 60, tc.2 + 1)
    else m w2

/-- Per-weekday (sleep-hours, count) accumulation over every retained day of
every participant, in traversal order. -/
def weekdayTotals (d : Nat) (groups : List (List DayMetrics)) :
    Weekday → Option (F64 × Nat) :=
  groups.foldl (fun m g => (windowOf d g).foldl weekdayStep m) (fun _ => none)

/-- The aggregator `compute_weekly_summary`: filters empty participants,
computes the common window, accumulates per-participant totals, averages
across participants with the `7 / days_to_use` rescaling, derives the daily
figures and the sedentary-hours difference, and emits the per-weekday sleep
averages in Monday-to-Sunday order. -/
def compute_weekly_summary (data : List (String × List DayMetrics)) :
    Option WeeklySummary :=
  if data.isEmpty then none
  else if (validGroups data).isEmpty then none
  else if listMin ((validGroups data).map List.length) = 0 then none
  else
    let days_to_use := daysToUse data
    let per_id_totals := (validGroups data).map (participantTotals days_to_use)
    if per_id_totals.isEmpty then none
    else
      let sums := per_id_totals.foldl
        (fun (acc : (Fin 5 → F64) × F64) t => (fun i => acc.1 i + t.1 i, acc.2 + t.2))
        (fun _ => F64.fin 0, F64.fin 0)
      let participant_count := F64.fin ((per_id_totals.length : ℚ))
      let weekly_average : Fin 5 → F64 := fun i =>
        sums.1 i / participant_count * (F64.fin 7 / F64.fin ((days_to_use : ℚ)))
      let weekly_mvpa_minutes :=
        sums.2 / participant_count * (F64.fin 7 / F64.fin ((days_to_use : ℚ)))
      let daily_average_hours : Fin 5 → F64 := fun i => weekly_average i / F64.fin 7
      let daily_mvpa_minutes := weekly_mvpa_minutes / F64.fin 7
      let daily_sedentary_hours :=
        F64.maxF (daily_average_hours 1 - daily_average_hours 0) (F64.fin 0)
      let wt := weekdayTotals days_to_use (validGroups data)
      let average_sleep_by_weekday := WEEKDAY_ORDER.filterMap (fun w =>
        match wt w with
        | some tc => if 0 < tc.2 then some (w, tc.1 / F64.fin ((tc.2 : ℚ))) else none
        | none => none)
      some ⟨weekly_average, weekly_mvpa_minutes, daily_average_hours,
            daily_mvpa_minutes, daily_sedentary_hours, average_sleep_by_weekday⟩

/-! ### Column resolution (`locate_required_columns`) -/

/-- Resolved column indices (`struct ColumnLookup`); `total_durations` lists
the IN, LIG, MOD, VIG columns in order. -/
structure ColumnLookup where
  id : Nat
  calendar_date : Nat
  weekday : Nat
  total_durations : List Nat
  sleep_minutes : Nat
deriving DecidableEq, Repr, Inhabited

/-- Index of the first element satisfying a predicate
(`Iterator::position`). -/
def position (p : α → Bool) : List α → Option Nat
  | [] => none
  | x :: xs => if p x then some 0 else (position p xs).map (· + 1)

/-- Look up one required header by exact equality; a miss records the name in
the running `missing` list and yields the placeholder index 0
(`find_index`). -/
def find_index (headers : List String) (name : String) (missing : List String) :
    Nat × List String :=
  match position (fun h => h == name) headers with
  | some index => (index, missing)
  | none => (0, missing ++ [name])

/-- The `DURATION_VARIANTS` constant. -/
def DURATION_VARIANTS : List String := ["IN", "LIG", "MOD", "VIG"]

/-- The eight required column names, in the order the source looks them up
(the last four are generated as `dur_day_total_{variant}_min`). -/
def requiredColumnNames : List String :=
  ["ID", "calendar_date", "weekday", "dur_spt_min"] ++
    DURATION_VARIANTS.map (fun v => "dur_day_total_" ++ v ++ "_min")

/-- Stable sort of strings in lexical order (`Vec::sort`). -/
def sortStrings (l : List String) : List String :=
  l.insertionSort (· ≤ ·)

/-- Removal of adjacent duplicates (`Vec::dedup`). -/
def dedupAdj : List String → List String
  | [] => []
  | [a] => [a]
  | a :: b :: t => if a = b then dedupAdj (b :: t) else a :: dedupAdj (b :: t)

/-- Resolve all eight required columns, or report every missing name, sorted
and deduplicated (`locate_required_columns`).  The eight `find_index` calls of
the source (four explicit ones followed by the loop over the duration
variants) are folded over `requiredColumnNames` in the same order. -/
def locate_required_columns (headers : List String) :
    Except (List String) ColumnLookup :=
  let step := fun (acc : List Nat × List String) name =>
    let im := find_index headers name acc.2
    (acc.1 ++ [im.1], im.2)
  let res := requiredColumnNames.foldl step ([], [])
  if res.2 = [] then
    .ok ⟨res.1.getD 0 0, res.1.getD 1 0, res.1.getD 2 0,
         [res.1.getD 4 0, res.1.getD 5 0, res.1.getD 6 0, res.1.getD 7 0],
         res.1.getD 3 0⟩
  else
    .error (dedupAdj (sortStrings res.2))

/-! ### Record extraction (`extract_metrics_from_record`) -/

/-- Fetch a required string field by index: present and non-blank after
trimming, else the row is rejected (`required_string_field`; the diagnostic
message is a side effect and not modelled). -/
def required_string_field (record : List String) (index : Nat) : Option String :=
  match record.get? index with
  | some value => if value.trim = "" then none else some value.trim
  | none => none

/-- Decimal digit test used by the float grammar. -/
def allDigits (l : List Char) : Bool := l.all Char.isDigit

/-- Numeric value of a digit list. -/
def digitsVal (l : List Char) : Nat :=
  l.foldl (fun a c => a * 10 + (c.toNat - 48)) 0

/-- Parse the exponent suffix of a float literal: an optional sign followed by
at least one digit, consuming the entire remainder. -/
def parseExpDigits : List Char → Option Int
  | '+' :: r => if r ≠ [] ∧ allDigits r then some ((digitsVal r : Int)) else none
  | '-' :: r => if r ≠ [] ∧ allDigits r then some (-(digitsVal r : Int)) else none
  | r => if r ≠ [] ∧ allDigits r then some ((digitsVal r : Int)) else none

/-- Split a character list into its maximal digit prefix and the rest. -/
def splitDigits : List Char → List Char × List Char
  | [] => ([], [])
  | c :: r =>
    if c.isDigit then
      let dr := splitDigits r
      (c :: dr.1, dr.2)
    else ([], c :: r)

/-- Parse the `Number` production of Rust's `f64` grammar — digits with an
optional fractional part and optional exponent, with at least one mantissa
digit — returning its exact rational value. -/
def parseNumber (l : List Char) : Option ℚ :=
  let d1 := splitDigits l
  let d2 := match d1.2 with
    | '.' :: rest => splitDigits rest
    | r => ([], r)
  if d1.1 = [] ∧ d2.1 = [] then none
  else
    let mant : ℚ := (digitsVal d1.1 : ℚ) + (digitsVal d2.1 : ℚ) / ((10 : ℚ) ^ d2.1.length)
    match d2.2 with
    | [] => some mant
    | 'e' :: rest => (parseExpDigits rest).map (fun e => mant * (10 : ℚ) ^ e)
    | 'E' :: rest => (parseExpDigits rest).map (fun e => mant * (10 : ℚ) ^ e)
    | _ => none

/-- Parse the unsigned body of a Rust float literal: the case-insensitive
keywords `inf`, `infinity` and `nan`, or a number. -/
def parseUnsignedF64 (l : List Char) (negative : Bool) : Option F64 :=
  let low := l.map Char.toLower
  if low = "inf".toList ∨ low = "infinity".toList then
    some (if negative then .ninf else .inf)
  else if low = "nan".toList then some .nan
  else (parseNumber l).map (fun q => .fin (if negative then -q else q))

/-- Model of `str::parse::<f64>`, following the documented grammar of
`f64::from_str`: an optional sign, then `inf`, `infinity`, `nan`
(case-insensitive) or a decimal number; finite results are kept exact instead
of rounded to the nearest representable double. -/
def rustParseF64 (s : String) : Option F64 :=
  match s.toList with
  | '+' :: rest => parseUnsignedF64 rest false
  | '-' :: rest => parseUnsignedF64 rest true
  | l => parseUnsignedF64 l false

/-- Fetch and parse a required numeric field: present, non-blank after
trimming, and parseable as `f64`, else the row is rejected
(`parse_f64_field`; diagnostics are not modelled). -/
def parse_f64_field (value : Option String) : Option F64 :=
  match value with
  | some raw => if raw.trim = "" then none else rustParseF64 raw.trim
  | none => none

/-- Extract one validated day-record from a raw row using the resolved column
map; extraction is all-or-nothing per row (`extract_metrics_from_record`). -/
def extract_metrics_from_record (record : List String) (columns : ColumnLookup) :
    Option DayMetrics :=
  match required_string_field record columns.id with
  | none => none
  | some id =>
    match required_string_field record columns.calendar_date with
    | none => none
    | some calendar_date =>
      match required_string_field record columns.weekday with
      | none => none
      | some weekday =>
        match parse_f64_field (record.get? (columns.total_durations.getD 0 0)) with
        | none => none
        | some t0 =>
          match parse_f64_field (record.get? (columns.total_durations.getD 1 0)) with
          | none => none
          | some t1 =>
            match parse_f64_field (record.get? (columns.total_durations.getD 2 0)) with
            | none => none
            | some t2 =>
              match parse_f64_field (record.get? (columns.total_durations.getD 3 0)) with
              | none => none
              | some t3 =>
                match parse_f64_field (record.get? columns.sleep_minutes) with
                | none => none
                | some sleep_minutes =>
                  some ⟨id, calendar_date, weekday, t0, t1, t2, t3, sleep_minutes⟩

/-! ### Order-theoretic facts about the comparison functions -/

theorem natCmp_lt_iff {a b : Nat} : natCmp a b = .lt ↔ a < b := by
  unfold natCmp; split_ifs <;> simp <;> omega

theorem natCmp_gt_iff {a b : Nat} : natCmp a b = .gt ↔ b < a := by
  unfold natCmp; split_ifs <;> simp <;> omega

theorem natCmp_eq_iff {a b : Nat} : natCmp a b = .eq ↔ a = b := by
  unfold natCmp; split_ifs <;> simp <;> omega

theorem intCmp_gt_iff {a b : Int} : intCmp a b = .gt ↔ b < a := by
  unfold intCmp; split_ifs <;> simp <;> omega

theorem intCmp_lt_iff {a b : Int} : intCmp a b = .lt ↔ a < b := by
  unfold intCmp; split_ifs <;> simp <;> omega

theorem intCmp_eq_iff {a b : Int} : intCmp a b = .eq ↔ a = b := by
  unfold intCmp; split_ifs <;> simp <;> omega

/-- Explicit description of when one date strictly follows another under
`dateCmp`: lexicographic year, month, day. -/
theorem dateCmp_gt_iff {x y : NDate} :
    dateCmp x y = .gt ↔
      (y.year < x.year ∨ (y.year = x.year ∧
        (y.month < x.month ∨ (y.month = x.month ∧ y.day < x.day)))) := by
  unfold dateCmp
  rcases h1 : intCmp x.year y.year with _ | _ | _ <;>
    rcases h2 : natCmp x.month y.month with _ | _ | _ <;>
      rcases h3 : natCmp x.day y.day with _ | _ | _ <;>
        simp_all [intCmp_lt_iff, intCmp_eq_iff, intCmp_gt_iff,
          natCmp_lt_iff, natCmp_eq_iff, natCmp_gt_iff] <;> omega

theorem dateCmp_le_trans {x y z : NDate} (h1 : dateCmp x y ≠ .gt)
    (h2 : dateCmp y z ≠ .gt) : dateCmp x z ≠ .gt := by
  rw [Ne, dateCmp_gt_iff] at h1 h2 ⊢; omega

theorem dateCmp_total (x y : NDate) : dateCmp x y ≠ .gt ∨ dateCmp y x ≠ .gt := by
  rw [Ne, dateCmp_gt_iff, Ne, dateCmp_gt_iff]; omega

theorem strCmpL_le_trans : ∀ a b c : List Char,
    strCmpL a b ≠ .gt → strCmpL b c ≠ .gt → strCmpL a c ≠ .gt := by
  intro a
  induction a with
  | nil =>
    intro b c _ _
    cases c <;> simp [strCmpL]
  | cons x xs ih =>
    intro b c h1 h2
    cases b with
    | nil => simp [strCmpL] at h1
    | cons y ys =>
      cases c with
      | nil => simp [strCmpL] at h2
      | cons z zs =>
        simp only [strCmpL] at h1 h2 ⊢
        split_ifs at h1 h2 ⊢ <;>
          first
          | exact absurd rfl h1
          | exact absurd rfl h2
          | exact ih ys zs h1 h2
          | decide
          | (exfalso; omega)

theorem strCmpL_total : ∀ a b : List Char, strCmpL a b ≠ .gt ∨ strCmpL b a ≠ .gt := by
  intro a
  induction a with
  | nil =>
    intro b; left; cases b <;> simp [strCmpL]
  | cons x xs ih =>
    intro b
    cases b with
    | nil => right; simp [strCmpL]
    | cons y ys =>
      simp only [strCmpL]
      split_ifs <;>
        first
        | (left; decide)
        | (right; decide)
        | exact ih ys

theorem cmLe_trans {a b c : DayMetrics} (h1 : cmLe a b) (h2 : cmLe b c) : cmLe a c := by
  unfold cmLe compare_metrics at h1 h2 ⊢
  rcases hpa : parse_calendar_date a.calendar_date with _ | da <;>
    rcases hpb : parse_calendar_date b.calendar_date with _ | db <;>
      rcases hpc : parse_calendar_date c.calendar_date with _ | dc <;>
        rw [hpa, hpb] at h1 <;> rw [hpb, hpc] at h2 <;> simp_all
      <;> first
        | exact strCmpL_le_trans _ _ _ h1 h2
        | exact dateCmp_le_trans h1 h2

theorem cmLe_total (a b : DayMetrics) : cmLe a b ∨ cmLe b a := by
  unfold cmLe compare_metrics
  rcases hpa : parse_calendar_date a.calendar_date with _ | da <;>
    rcases hpb : parse_calendar_date b.calendar_date with _ | db <;> simp_all
  · exact strCmpL_total _ _
  · exact dateCmp_total da db

instance : IsTrans DayMetrics cmLe := ⟨fun _ _ _ => cmLe_trans⟩

instance : IsTotal DayMetrics cmLe := ⟨cmLe_total⟩

/-! ### Facts about the stable sort and the retained window -/

theorem sort_metrics_sorted (l : List DayMetrics) :
    (sort_metrics_by_date l).Pairwise cmLe :=
  List.sorted_insertionSort cmLe l

theorem sort_metrics_perm (l : List DayMetrics) :
    List.Perm (sort_metrics_by_date l) l :=
  List.perm_insertionSort cmLe l

theorem sort_metrics_of_sorted {l : List DayMetrics} (h : l.Pairwise cmLe) :
    sort_metrics_by_date l = l :=
  List.Sorted.insertionSort_eq h

theorem length_sort_metrics (l : List DayMetrics) :
    (sort_metrics_by_date l).length = l.length :=
  (sort_metrics_perm l).length_eq

theorem length_windowOf (d : Nat) (g : List DayMetrics) :
    (windowOf d g).length = Nat.min d g.length := by
  simp [windowOf, length_sort_metrics]

theorem windowOf_sorted (d : Nat) (g : List DayMetrics) :
    (windowOf d g).Pairwise cmLe :=
  List.Pairwise.sublist (List.take_sublist d _) (sort_metrics_sorted g)

theorem windowOf_idem (d : Nat) (g : List DayMetrics) :
    windowOf d (windowOf d g) = windowOf d g := by
  have h1 : sort_metrics_by_date (windowOf d g) = windowOf d g :=
    sort_metrics_of_sorted (windowOf_sorted d g)
  show (sort_metrics_by_date (windowOf d g)).take d = windowOf d g
  rw [h1]
  simp only [windowOf, List.take_take, Nat.min_self]

theorem windowOf_subset {d : Nat} {g : List DayMetrics} :
    ∀ x ∈ windowOf d g, x ∈ g := by
  intro x hx
  exact (sort_metrics_perm g).mem_iff.mp (List.take_subset _ _ hx)

/-! ### Facts about `listMin` and the groups -/

theorem foldl_min_le_init : ∀ (t : List Nat) (a : Nat), t.foldl Nat.min a ≤ a := by
  intro t
  induction t with
  | nil => intro a; exact Nat.le_refl a
  | cons x xs ih =>
    intro a
    exact Nat.le_trans (ih (Nat.min a x)) (Nat.min_le_left a x)

theorem foldl_min_le_mem : ∀ (t : List Nat) (a x : Nat), x ∈ t → t.foldl Nat.min a ≤ x := by
  intro t
  induction t with
  | nil => intro a x hx; cases hx
  | cons y ys ih =>
    intro a x hx
    rcases List.mem_cons.mp hx with rfl | hx
    · exact Nat.le_trans (foldl_min_le_init ys (Nat.min a x)) (Nat.min_le_right a x)
    · exact ih (Nat.min a y) x hx

theorem le_foldl_min : ∀ (t : List Nat) (a c : Nat), c ≤ a → (∀ x ∈ t, c ≤ x) →
    c ≤ t.foldl Nat.min a := by
  intro t
  induction t with
  | nil => intro a c h _; exact h
  | cons y ys ih =>
    intro a c h hall
    exact ih (Nat.min a y) c (Nat.le_min.mpr ⟨h, hall y (List.mem_cons_self y ys)⟩)
      (fun x hx => hall x (List.mem_cons_of_mem y hx))

theorem listMin_le {l : List Nat} {x : Nat} (hx : x ∈ l) : listMin l ≤ x := by
  cases l with
  | nil => cases hx
  | cons h t =>
    rcases List.mem_cons.mp hx with rfl | hx
    · exact foldl_min_le_init t x
    · exact foldl_min_le_mem t h x hx

theorem le_listMin {l : List Nat} {c : Nat} (hne : l ≠ []) (hall : ∀ x ∈ l, c ≤ x) :
    c ≤ listMin l := by
  cases l with
  | nil => exact absurd rfl hne
  | cons h t =>
    exact le_foldl_min t h c (hall h (List.mem_cons_self h t))
      (fun x hx => hall x (List.mem_cons_of_mem h hx))

theorem listMin_const {l : List Nat} {d : Nat} (hne : l ≠ []) (hall : ∀ x ∈ l, x = d) :
    listMin l = d := by
  cases l with
  | nil => exact absurd rfl hne
  | cons h t =>
    have h1 : listMin (h :: t) ≤ d := hall h (List.mem_cons_self h t) ▸
      listMin_le (List.mem_cons_self h t)
    have h2 : d ≤ listMin (h :: t) :=
      le_listMin hne (fun x hx => Nat.le_of_eq (hall x hx).symm)
    omega

theorem mem_validGroups_ne_nil {data : List (String × List DayMetrics)}
    {g : List DayMetrics} (hg : g ∈ validGroups data) : g ≠ [] := by
  simp only [validGroups, List.mem_filter] at hg
  simpa using hg.2

theorem validGroups_eq_nil_iff {data : List (String × List DayMetrics)} :
    validGroups data = [] ↔ ∀ p ∈ data, p.2 = [] := by
  rw [validGroups, List.filter_eq_nil_iff]
  constructor
  · intro h p hp
    have h2 := h p.2 (List.mem_map.mpr ⟨p, hp, rfl⟩)
    simpa using h2
  · intro h g hg
    rcases List.mem_map.mp hg with ⟨p, hp, rfl⟩
    simp [h p hp]

theorem listMin_validGroups_pos {data : List (String × List DayMetrics)}
    (h : validGroups data ≠ []) :
    0 < listMin ((validGroups data).map List.length) := by
  have hne : (validGroups data).map List.length ≠ [] := by
    simpa using h
  refine le_listMin hne ?_
  intro x hx
  rcases List.mem_map.mp hx with ⟨g, hg, rfl⟩
  have := mem_validGroups_ne_nil hg
  cases g with
  | nil => exact absurd rfl this
  | cons a t => simp

theorem daysToUse_pos {data : List (String × List DayMetrics)}
    (h : validGroups data ≠ []) : 0 < daysToUse data := by
  unfold daysToUse
  exact lt_min (listMin_validGroups_pos h) (by norm_num)

theorem daysToUse_le_seven (data : List (String × List DayMetrics)) :
    daysToUse data ≤ 7 := Nat.min_le_right _ _

theorem daysToUse_le_length {data : List (String × List DayMetrics)}
    {g : List DayMetrics} (hg : g ∈ validGroups data) :
    daysToUse data ≤ g.length := by
  have h1 : listMin ((validGroups data).map List.length) ≤ g.length :=
    listMin_le (List.mem_map.mpr ⟨g, hg, rfl⟩)
  have h2 : daysToUse data ≤ listMin ((validGroups data).map List.length) :=
    Nat.min_le_left _ _
  omega

/-! ### Named components of the aggregate, for the theorem statements -/

/-- Per-participant (hour totals, MVPA minutes) pairs, in group order. -/
def perIdTotals (data : List (String × List DayMetrics)) :
    List ((Fin 5 → F64) × F64) :=
  (validGroups data).map (participantTotals (daysToUse data))

/-- Cross-participant sums of the per-participant totals. -/
def sumsOf (data : List (String × List DayMetrics)) : (Fin 5 → F64) × F64 :=
  (perIdTotals data).foldl
    (fun (acc : (Fin 5 → F64) × F64) t => (fun i => acc.1 i + t.1 i, acc.2 + t.2))
    (fun _ => F64.fin 0, F64.fin 0)

/-- The weekly five-entry averages exactly as assembled by the aggregator. -/
def weeklyAvgOf (data : List (String × List DayMetrics)) : Fin 5 → F64 := fun i =>
  (sumsOf data).1 i / F64.fin ((perIdTotals data).length : ℚ) *
    (F64.fin 7 / F64.fin ((daysToUse data : ℚ)))

/-- The weekly MVPA minutes exactly as assembled by the aggregator. -/
def weeklyMvpaOf (data : List (String × List DayMetrics)) : F64 :=
  (sumsOf data).2 / F64.fin ((perIdTotals data).length : ℚ) *
    (F64.fin 7 / F64.fin ((daysToUse data : ℚ)))

/-- One output row of the per-weekday report: present when the weekday has a
positive observation count, carrying the mean sleep hours. -/
def weekdayRow (data : List (String × List DayMetrics)) (w : Weekday) :
    Option (Weekday × F64) :=
  match weekdayTotals (daysToUse data) (validGroups data) w with
  | some tc => if 0 < tc.2 then some (w, tc.1 / F64.fin ((tc.2 : ℚ))) else none
  | none => none

/-- The per-weekday output rows exactly as assembled by the aggregator. -/
def sleepByWeekdayOf (data : List (String × List DayMetrics)) :
    List (Weekday × F64) :=
  WEEKDAY_ORDER.filterMap (weekdayRow data)

/-- The complete summary value produced on the success path. -/
def mkSummary (data : List (String × List DayMetrics)) : WeeklySummary :=
  ⟨weeklyAvgOf data,
   weeklyMvpaOf data,
   fun i => weeklyAvgOf data i / F64.fin 7,
   weeklyMvpaOf data / F64.fin 7,
   F64.maxF ((weeklyAvgOf data 1 / F64.fin 7) - (weeklyAvgOf data 0 / F64.fin 7)) (F64.fin 0),
   sleepByWeekdayOf data⟩

theorem compute_none_of_nil {data : List (String × List DayMetrics)}
    (h : validGroups data = []) : compute_weekly_summary data = none := by
  unfold compute_weekly_summary
  by_cases hemp : data.isEmpty
  · rw [if_pos hemp]
  · rw [if_neg hemp, if_pos (by simp [h])]

theorem compute_some_of_ne_nil {data : List (String × List DayMetrics)}
    (h : validGroups data ≠ []) :
    compute_weekly_summary data = some (mkSummary data) := by
  have hemp : ¬ data.isEmpty = true := by
    rcases data with _ | ⟨p, rest⟩
    · simp [validGroups] at h
    · simp
  have hvg : ¬ (validGroups data).isEmpty = true := by
    simpa using h
  have hpos : ¬ listMin ((validGroups data).map List.length) = 0 :=
    Nat.pos_iff_ne_zero.mp (listMin_validGroups_pos h)
  have hmap : ¬ ((validGroups data).map (participantTotals (daysToUse data))).isEmpty = true := by
    simpa using h
  unfold compute_weekly_summary
  rw [if_neg hemp, if_neg hvg, if_neg hpos]
  simp only []
  rw [if_neg hmap]
  rfl

theorem compute_eq_none_iff (data : List (String × List DayMetrics)) :
    compute_weekly_summary data = none ↔ ∀ p ∈ data, p.2 = [] := by
  rw [← validGroups_eq_nil_iff]
  constructor
  · intro h
    by_contra hne
    rw [compute_some_of_ne_nil hne] at h
    cases h
  · exact compute_none_of_nil

theorem compute_eq_some_iff {data : List (String × List DayMetrics)}
    {s : WeeklySummary} :
    compute_weekly_summary data = some s ↔
      (validGroups data ≠ [] ∧ s = mkSummary data) := by
  constructor
  · intro h
    by_cases hne : validGroups data = []
    · rw [compute_none_of_nil hne] at h
      cases h
    · rw [compute_some_of_ne_nil hne] at h
      exact ⟨hne, (Option.some.inj h).symm⟩
  · rintro ⟨hne, rfl⟩
    exact compute_some_of_ne_nil hne

/-! ### Fold lemmas relating the accumulation loops to list sums -/

theorem F64.add_def (a b : F64) : a + b = F64.add a b := rfl

theorem foldl_pair_fst {β : Type} (l : List β) (f : β → Fin 5 → F64) (g : β → F64)
    (a : Fin 5 → F64) (b : F64) (i : Fin 5) :
    (l.foldl (fun (acc : (Fin 5 → F64) × F64) x => (fun j => acc.1 j + f x j, acc.2 + g x)) (a, b)).1 i
      = l.foldl (fun y x => y + f x i) (a i) := by
  induction l generalizing a b with
  | nil => rfl
  | cons x xs ih => exact ih (fun j => a j + f x j) (b + g x)

theorem foldl_pair_snd {β : Type} (l : List β) (f : β → Fin 5 → F64) (g : β → F64)
    (a : Fin 5 → F64) (b : F64) :
    (l.foldl (fun (acc : (Fin 5 → F64) × F64) x => (fun j => acc.1 j + f x j, acc.2 + g x)) (a, b)).2
      = l.foldl (fun y x => y + g x) b := by
  induction l generalizing a b with
  | nil => rfl
  | cons x xs ih => exact ih (fun j => a j + f x j) (b + g x)

/-- Spec-side reading of the per-participant accumulation: the sum of the
hour-converted field `i` over the participant's retained window. -/
def participantHourSum (d : Nat) (g : List DayMetrics) (i : Fin 5) : F64 :=
  Fsum ((windowOf d g).map (fun day => dayHours day i))

/-- Spec-side reading of the MVPA accumulation: the sum of
`moderate + vigorous` minutes over the participant's retained window. -/
def participantMvpaSum (d : Nat) (g : List DayMetrics) : F64 :=
  Fsum ((windowOf d g).map (fun day => day.total_mod_min + day.total_vig_min))

theorem participantTotals_fst (d : Nat) (g : List DayMetrics) (i : Fin 5) :
    (participantTotals d g).1 i = participantHourSum d g i := by
  rw [participantHourSum, Fsum, List.foldl_map]
  exact foldl_pair_fst (windowOf d g) dayHours
    (fun day => day.total_mod_min + day.total_vig_min) (fun _ => F64.fin 0) (F64.fin 0) i

theorem participantTotals_snd (d : Nat) (g : List DayMetrics) :
    (participantTotals d g).2 = participantMvpaSum d g := by
  rw [participantMvpaSum, Fsum, List.foldl_map]
  exact foldl_pair_snd (windowOf d g) dayHours
    (fun day => day.total_mod_min + day.total_vig_min) (fun _ => F64.fin 0) (F64.fin 0)

theorem sumsOf_fst (data : List (String × List DayMetrics)) (i : Fin 5) :
    (sumsOf data).1 i = Fsum ((perIdTotals data).map (fun t => t.1 i)) := by
  rw [Fsum, List.foldl_map]
  exact foldl_pair_fst (perIdTotals data) (fun t => t.1) (fun t => t.2)
    (fun _ => F64.fin 0) (F64.fin 0) i

theorem sumsOf_snd (data : List (String × List DayMetrics)) :
    (sumsOf data).2 = Fsum ((perIdTotals data).map (fun t => t.2)) := by
  rw [Fsum, List.foldl_map]
  exact foldl_pair_snd (perIdTotals data) (fun t => t.1) (fun t => t.2)
    (fun _ => F64.fin 0) (F64.fin 0)

theorem weeklyAvgOf_eq (data : List (String × List DayMetrics)) (i : Fin 5) :
    weeklyAvgOf data i =
      Fsum ((validGroups data).map (fun g => participantHourSum (daysToUse data) g i)) /
          F64.fin ((validGroups data).length : ℚ) *
        (F64.fin 7 / F64.fin ((daysToUse data : ℚ))) := by
  have h1 : (perIdTotals data).map (fun t => t.1 i) =
      (validGroups data).map (fun g => participantHourSum (daysToUse data) g i) := by
    rw [perIdTotals, List.map_map, Function.comp_def]
    simp only [participantTotals_fst]
  have h2 : (perIdTotals data).length = (validGroups data).length := by
    simp [perIdTotals]
  rw [weeklyAvgOf, sumsOf_fst, h1, h2]

theorem weeklyMvpaOf_eq (data : List (String × List DayMetrics)) :
    weeklyMvpaOf data =
      Fsum ((validGroups data).map (participantMvpaSum (daysToUse data))) /
          F64.fin ((validGroups data).length : ℚ) *
        (F64.fin 7 / F64.fin ((daysToUse data : ℚ))) := by
  have h1 : (perIdTotals data).map (fun t => t.2) =
      (validGroups data).map (participantMvpaSum (daysToUse data)) := by
    rw [perIdTotals, List.map_map, Function.comp_def]
    simp only [participantTotals_snd]
  have h2 : (perIdTotals data).length = (validGroups data).length := by
    simp [perIdTotals]
  rw [weeklyMvpaOf, sumsOf_snd, h1, h2]

/-! ### Characterization of the per-weekday sleep accumulator -/

/-- All retained days of all retained participants, in traversal order. -/
def retainedAll (data : List (String × List DayMetrics)) : List DayMetrics :=
  ((validGroups data).map (windowOf (daysToUse data))).flatten

/-- Days whose resolved weekday is `w`. -/
def weekdayFilter (w : Weekday) (days : List DayMetrics) : List DayMetrics :=
  days.filter (fun day => determine_weekday day == some w)

/-- Number of retained days (pooled across participants) contributing to
weekday `w`. -/
def pooledCount (data : List (String × List DayMetrics)) (w : Weekday) : Nat :=
  (weekdayFilter w (retainedAll data)).length

/-- Pooled sum of sleep hours of the retained days contributing to `w`. -/
def pooledSleepSum (data : List (String × List DayMetrics)) (w : Weekday) : F64 :=
  Fsum ((weekdayFilter w (retainedAll data)).map (fun day => day.sleep_minutes / F64.fin 60))

/-- Result of continuing the weekday accumulation from a present entry. -/
def weekdayAccum (days : List DayMetrics) (w : Weekday) (b : F64 × Nat) : F64 × Nat :=
  (((weekdayFilter w days).map (fun day => day.sleep_minutes / F64.fin 60)).foldl F64.add b.1,
   b.2 + (weekdayFilter w days).length)

theorem foldl_weekdayStep_some :
    ∀ (days : List DayMetrics) (m : Weekday → Option (F64 × Nat)) (w : Weekday)
      (tc : F64 × Nat), m w = some tc →
      (days.foldl weekdayStep m) w = some (weekdayAccum days w tc) := by
  intro days
  induction days with
  | nil =>
    intro m w tc h
    simp [weekdayAccum, weekdayFilter, h]
  | cons day rest ih =>
    intro m w tc h
    show (rest.foldl weekdayStep (weekdayStep m day)) w = _
    rcases hd : determine_weekday day with _ | w'
    · have hstep : weekdayStep m day = m := by
        unfold weekdayStep
        rw [hd]
      have hpred : (determine_weekday day == some w) = false := by
        rw [hd]; rfl
      rw [hstep, ih m w tc h]
      simp only [weekdayAccum, weekdayFilter, List.filter_cons, hpred,
        Bool.false_eq_true, if_false]
    · by_cases hw : w = w'
      · subst hw
        have hstep : (weekdayStep m day) w =
            some (tc.1 + day.sleep_minutes / F64.fin 60, tc.2 + 1) := by
          unfold weekdayStep
          rw [hd]
          simp [h]
        have hpred : (determine_weekday day == some w) = true := by
          rw [hd]; simp
        rw [ih _ w _ hstep]
        simp only [weekdayAccum, weekdayFilter, List.filter_cons, hpred, if_true,
          List.map_cons, List.foldl_cons, List.length_cons, F64.add_def]
        rw [Option.some_inj]
        refine Prod.ext rfl ?_
        show tc.2 + 1 + (List.filter (fun day => determine_weekday day == some w) rest).length
          = tc.2 + ((List.filter (fun day => determine_weekday day == some w) rest).length + 1)
        omega
      · have hstep : (weekdayStep m day) w = m w := by
          unfold weekdayStep
          rw [hd]
          exact if_neg hw
        have hpred : (determine_weekday day == some w) = false := by
          rw [hd]
          simp only [beq_eq_false_iff_ne, Ne, Option.some.injEq]
          exact fun hcon => hw hcon.symm
        rw [ih _ w tc (hstep.trans h)]
        simp only [weekdayAccum, weekdayFilter, List.filter_cons, hpred,
          Bool.false_eq_true, if_false]

theorem foldl_weekdayStep_none :
    ∀ (days : List DayMetrics) (m : Weekday → Option (F64 × Nat)) (w : Weekday),
      m w = none →
      (days.foldl weekdayStep m) w =
        if (weekdayFilter w days).isEmpty then none
        else some (weekdayAccum days w (F64.fin 0, 0)) := by
  intro days
  induction days with
  | nil =>
    intro m w h
    simp [weekdayFilter, h]
  | cons day rest ih =>
    intro m w h
    show (rest.foldl weekdayStep (weekdayStep m day)) w = _
    rcases hd : determine_weekday day with _ | w'
    · have hstep : weekdayStep m day = m := by
        unfold weekdayStep
        rw [hd]
      have hpred : (determine_weekday day == some w) = false := by
        rw [hd]; rfl
      rw [hstep, ih m w h]
      simp only [weekdayAccum, weekdayFilter, List.filter_cons, hpred,
        Bool.false_eq_true, if_false]
    · by_cases hw : w = w'
      · subst hw
        have hstep : (weekdayStep m day) w =
            some (F64.fin 0 + day.sleep_minutes / F64.fin 60, 0 + 1) := by
          unfold weekdayStep
          rw [hd]
          simp [h]
        have hpred : (determine_weekday day == some w) = true := by
          rw [hd]; simp
        rw [foldl_weekdayStep_some rest _ w _ hstep]
        simp only [weekdayAccum, weekdayFilter, List.filter_cons, hpred, if_true,
          List.map_cons, List.foldl_cons, List.length_cons, F64.add_def,
          List.isEmpty_cons, Bool.false_eq_true, if_false]
        rw [Option.some_inj]
        refine Prod.ext rfl ?_
        show 0 + 1 + (List.filter (fun day => determine_weekday day == some w) rest).length
          = 0 + ((List.filter (fun day => determine_weekday day == some w) rest).length + 1)
        omega
      · have hstep : (weekdayStep m day) w = m w := by
          unfold weekdayStep
          rw [hd]
          exact if_neg hw
        have hpred : (determine_weekday day == some w) = false := by
          rw [hd]
          simp only [beq_eq_false_iff_ne, Ne, Option.some.injEq]
          exact fun hcon => hw hcon.symm
        rw [ih _ w (hstep.trans h)]
        simp only [weekdayAccum, weekdayFilter, List.filter_cons, hpred,
          Bool.false_eq_true, if_false]

theorem weekdayTotals_eq (data : List (String × List DayMetrics)) (w : Weekday) :
    weekdayTotals (daysToUse data) (validGroups data) w =
      if pooledCount data w = 0 then none
      else some (pooledSleepSum data w, pooledCount data w) := by
  have h1 : weekdayTotals (daysToUse data) (validGroups data) =
      (retainedAll data).foldl weekdayStep (fun _ => none) := by
    simp only [weekdayTotals, retainedAll, List.foldl_flatten, List.foldl_map]
  rw [h1, foldl_weekdayStep_none (retainedAll data) _ w rfl]
  by_cases hz : pooledCount data w = 0
  · have hemp : (weekdayFilter w (retainedAll data)).isEmpty = true := by
      rw [List.isEmpty_iff, ← List.length_eq_zero]
      exact hz
    rw [hemp, if_pos hz, if_pos rfl]
  · have hemp : (weekdayFilter w (retainedAll data)).isEmpty = false := by
      rw [List.isEmpty_eq_false]
      intro hcon
      exact hz (by rw [pooledCount, hcon]; rfl)
    rw [hemp, if_neg hz]
    simp only [weekdayAccum, Bool.false_eq_true, if_false]
    rw [Option.some_inj]
    refine Prod.ext rfl ?_
    show 0 + (weekdayFilter w (retainedAll data)).length = pooledCount data w
    rw [pooledCount]
    omega

/-! ### Truncation invariance: only the sorted prefixes matter -/

/-- The input with every participant group replaced by its retained window
(the first `daysToUse data` records of its date-sorted sequence). -/
def truncData (data : List (String × List DayMetrics)) :
    List (String × List DayMetrics) :=
  data.map (fun p => (p.1, windowOf (daysToUse data) p.2))

theorem windowOf_isEmpty {d : Nat} (hd : 0 < d) (g : List DayMetrics) :
    (windowOf d g).isEmpty = g.isEmpty := by
  by_cases hg : g = []
  · subst hg
    simp [windowOf, sort_metrics_by_date]
  · have h1 : g.length ≠ 0 := fun hc => hg (List.length_eq_zero.mp hc)
    have h2 : (windowOf d g).length ≠ 0 := by
      rw [length_windowOf]
      exact Nat.pos_iff_ne_zero.mp (lt_min hd (Nat.pos_of_ne_zero h1))
    rw [List.isEmpty_eq_false.mpr hg,
        List.isEmpty_eq_false.mpr (fun hc => h2 (by rw [hc]; rfl))]

theorem validGroups_trunc {data : List (String × List DayMetrics)}
    (h : validGroups data ≠ []) :
    validGroups (truncData data) =
      (validGroups data).map (windowOf (daysToUse data)) := by
  have hd : 0 < daysToUse data := daysToUse_pos h
  unfold validGroups truncData
  rw [List.map_map]
  have hc : (Prod.snd ∘ fun p : String × List DayMetrics =>
      (p.1, windowOf (daysToUse data) p.2)) = (windowOf (daysToUse data)) ∘ Prod.snd := rfl
  rw [hc, ← List.map_map, List.filter_map]
  congr 1
  apply List.filter_congr
  intro g _
  show (!(windowOf (daysToUse data) g).isEmpty) = (!g.isEmpty)
  rw [windowOf_isEmpty hd]

theorem daysToUse_trunc {data : List (String × List DayMetrics)}
    (h : validGroups data ≠ []) :
    daysToUse (truncData data) = daysToUse data := by
  have hvt := validGroups_trunc h
  have hlen : ∀ x ∈ (validGroups (truncData data)).map List.length, x = daysToUse data := by
    intro x hx
    rw [hvt, List.map_map] at hx
    rcases List.mem_map.mp hx with ⟨g, hg, rfl⟩
    show (windowOf (daysToUse data) g).length = daysToUse data
    rw [length_windowOf]
    exact Nat.min_eq_left (daysToUse_le_length hg)
  have hne : (validGroups (truncData data)).map List.length ≠ [] := by
    rw [hvt]
    simpa using h
  show Nat.min (listMin ((validGroups (truncData data)).map List.length)) 7 = daysToUse data
  rw [listMin_const hne hlen]
  exact Nat.min_eq_left (daysToUse_le_seven data)

theorem participantTotals_window (d : Nat) (g : List DayMetrics) :
    participantTotals d (windowOf d g) = participantTotals d g := by
  unfold participantTotals
  rw [windowOf_idem]

theorem perIdTotals_trunc {data : List (String × List DayMetrics)}
    (h : validGroups data ≠ []) :
    perIdTotals (truncData data) = perIdTotals data := by
  unfold perIdTotals
  rw [validGroups_trunc h, daysToUse_trunc h, List.map_map, Function.comp_def]
  simp only [participantTotals_window]

theorem weekdayTotals_map_window (d : Nat) (groups : List (List DayMetrics)) :
    weekdayTotals d (groups.map (windowOf d)) = weekdayTotals d groups := by
  unfold weekdayTotals
  rw [List.foldl_map]
  simp only [windowOf_idem]

theorem mkSummary_trunc {data : List (String × List DayMetrics)}
    (h : validGroups data ≠ []) :
    mkSummary (truncData data) = mkSummary data := by
  have hd : daysToUse (truncData data) = daysToUse data := daysToUse_trunc h
  have hwt : weekdayTotals (daysToUse data) (validGroups (truncData data))
      = weekdayTotals (daysToUse data) (validGroups data) := by
    rw [validGroups_trunc h, weekdayTotals_map_window]
  have hp : perIdTotals (truncData data) = perIdTotals data := perIdTotals_trunc h
  unfold mkSummary weeklyAvgOf weeklyMvpaOf sleepByWeekdayOf weekdayRow sumsOf
  simp only [hwt, hp, hd]

theorem compute_trunc {data : List (String × List DayMetrics)}
    (h : validGroups data ≠ []) :
    compute_weekly_summary (truncData data) = compute_weekly_summary data := by
  have h2 : validGroups (truncData data) ≠ [] := by
    rw [validGroups_trunc h]
    simpa using h
  rw [compute_some_of_ne_nil h, compute_some_of_ne_nil h2, mkSummary_trunc h]

/-! ### Structure of the greedy digit scanners, for the format-priority proof -/

theorem takeDigits_inv : ∀ (s : List Char) (maxW acc : Nat),
    ∃ ds v r, s = ds ++ r ∧ takeDigits maxW acc s = (ds.length, v, r) ∧
      (∀ c ∈ ds, c.isDigit = true) ∧ ds.length ≤ maxW ∧
      (ds.length = maxW ∨ r = [] ∨ ∃ c rs, r = c :: rs ∧ c.isDigit = false) := by
  intro s
  induction s with
  | nil =>
    intro maxW acc
    refine ⟨[], acc, [], rfl, ?_, by simp, by simp, Or.inr (Or.inl rfl)⟩
    cases maxW <;> rfl
  | cons c cs ih =>
    intro maxW acc
    cases maxW with
    | zero => exact ⟨[], acc, c :: cs, rfl, rfl, by simp, by simp, Or.inl rfl⟩
    | succ m =>
      by_cases hc : c.isDigit = true
      · rcases ih m (acc * 10 + (c.toNat - 48)) with ⟨ds, v, r, hsplit, heq, hdig, hlen, hlast⟩
        refine ⟨c :: ds, v, r, by rw [List.cons_append, hsplit], ?_, ?_,
          by simpa using hlen, ?_⟩
        · show takeDigits (m + 1) acc (c :: cs) = ((c :: ds).length, v, r)
          unfold takeDigits
          rw [if_pos hc, heq]
          rfl
        · intro x hx
          rcases List.mem_cons.mp hx with rfl | hx
          · exact hc
          · exact hdig x hx
        · rcases hlast with h | h
          · exact Or.inl (by simpa using h)
          · exact Or.inr h
      · refine ⟨[], acc, c :: cs, rfl, ?_, by simp, by simp,
          Or.inr (Or.inr ⟨c, cs, rfl, by simpa using hc⟩)⟩
        show takeDigits (m + 1) acc (c :: cs) = (0, acc, c :: cs)
        unfold takeDigits
        rw [if_neg hc]

theorem scanNum_inv {minW maxW : Nat} {s r : List Char} {v : Nat}
    (h : scanNum minW maxW s = some (v, r)) :
    ∃ ds, s = ds ++ r ∧ (∀ c ∈ ds, c.isDigit = true) ∧
      minW ≤ ds.length ∧ ds.length ≤ maxW ∧
      (ds.length = maxW ∨ r = [] ∨ ∃ c rs, r = c :: rs ∧ c.isDigit = false) := by
  rcases takeDigits_inv s maxW 0 with ⟨ds, v', r', hsplit, heq, hdig, hlen, hlast⟩
  unfold scanNum at h
  simp only [heq] at h
  by_cases hmin : minW ≤ ds.length
  · rw [if_pos hmin] at h
    have hr : r' = r := congrArg Prod.snd (Option.some.inj h)
    subst hr
    exact ⟨ds, hsplit, hdig, hmin, hlen, hlast⟩
  · rw [if_neg hmin] at h
    cases h

theorem expectChar_inv {c : Char} {l r : List Char} (h : expectChar c l = some r) :
    l = c :: r := by
  cases l with
  | nil => cases h
  | cons x rest =>
    simp only [expectChar] at h
    by_cases hx : x = c
    · rw [if_pos hx] at h
      rw [hx, Option.some.inj h]
    · rw [if_neg hx] at h
      cases h

/-- Exact-consumption lemma: the greedy scanner consumes precisely a digit
block that is terminated by a non-digit, when the block fits the width. -/
theorem takeDigits_exact : ∀ (ds : List Char) (maxW acc : Nat) (c : Char) (r : List Char),
    (∀ x ∈ ds, x.isDigit = true) → ds.length ≤ maxW → c.isDigit = false →
    ∃ v, takeDigits maxW acc (ds ++ c :: r) = (ds.length, v, c :: r) := by
  intro ds
  induction ds with
  | nil =>
    intro maxW acc c r _ _ hc
    refine ⟨acc, ?_⟩
    cases maxW with
    | zero => rfl
    | succ m =>
      show takeDigits (m + 1) acc (c :: r) = (0, acc, c :: r)
      unfold takeDigits
      rw [if_neg (by simp [hc])]
  | cons d ds' ih =>
    intro ds_maxW acc c r hdig hlen hc
    cases ds_maxW with
    | zero => simp at hlen
    | succ m =>
      have hd : d.isDigit = true := hdig d (List.mem_cons_self d ds')
      rcases ih m (acc * 10 + (d.toNat - 48)) c r
        (fun x hx => hdig x (List.mem_cons_of_mem d hx)) (by simpa using hlen) hc with ⟨v, hv⟩
      refine ⟨v, ?_⟩
      show takeDigits (m + 1) acc (d :: (ds' ++ c :: r)) = ((d :: ds').length, v, c :: r)
      unfold takeDigits
      rw [if_pos hd, hv]
      rfl

theorem digit_ne_dash {c : Char} (h : c.isDigit = true) : c ≠ '-' := by
  intro hc
  rw [hc] at h
  exact absurd h (by decide)

theorem digit_ne_plus {c : Char} (h : c.isDigit = true) : c ≠ '+' := by
  intro hc
  rw [hc] at h
  exact absurd h (by decide)

/-- Structure of any string accepted by the `%m/%d/%Y` parser: it begins with
one or two digits followed by a slash. -/
theorem parseFmtMdy_head {s : String} {d2 : NDate} (h : parseFmtMdy s = some d2) :
    ∃ ds r, s.toList = ds ++ '/' :: r ∧ (∀ c ∈ ds, c.isDigit = true) ∧
      1 ≤ ds.length ∧ ds.length ≤ 2 := by
  unfold parseFmtMdy at h
  rcases hm : scanNum 1 2 s.toList with _ | ⟨m, r1⟩
  · simp only [hm] at h
    exact Option.noConfusion h
  · simp only [hm] at h
    rcases he : expectChar '/' r1 with _ | r2
    · simp only [he] at h
      exact Option.noConfusion h
    · rcases scanNum_inv hm with ⟨ds, hs, hdig, hmin, hmax, _⟩
      exact ⟨ds, r2, by rw [hs, expectChar_inv he], hdig, hmin, hmax⟩

/-- Format priority: if a string is accepted by the `%m/%d/%Y` parser then
the `%Y-%m-%d` parser rejects it, because the year scanner consumes exactly
the leading digit block and then requires a dash where the slash stands. -/
theorem parseFmtYmd_none_of_mdy {s : String} {d2 : NDate}
    (h : parseFmtMdy s = some d2) : parseFmtYmd s = none := by
  rcases parseFmtMdy_head h with ⟨ds, r, hs, hdig, h1, h2⟩
  rcases ds with _ | ⟨d0, ds'⟩
  · simp at h1
  · have hd0 : d0.isDigit = true := hdig d0 (List.mem_cons_self d0 ds')
    have hy : scanYear s.toList =
        (scanNum 1 4 s.toList).map (fun vr => ((vr.1 : Int), vr.2)) := by
      rw [hs]
      show (if d0 = '-' then
          (scanNum 1 4 (ds' ++ '/' :: r)).map (fun vr => (-(vr.1 : Int), vr.2))
        else if d0 = '+' then
          (scanNum 1 4 (ds' ++ '/' :: r)).map (fun vr => ((vr.1 : Int), vr.2))
        else
          (scanNum 1 4 (d0 :: (ds' ++ '/' :: r))).map (fun vr => ((vr.1 : Int), vr.2)))
        = (scanNum 1 4 (d0 :: (ds' ++ '/' :: r))).map (fun vr => ((vr.1 : Int), vr.2))
      rw [if_neg (digit_ne_dash hd0), if_neg (digit_ne_plus hd0)]
    rcases takeDigits_exact (d0 :: ds') 4 0 '/' r hdig (by omega) (by decide) with ⟨v4, htake⟩
    have hscan : scanNum 1 4 s.toList = some (v4, '/' :: r) := by
      unfold scanNum
      rw [hs]
      simp only [htake]
      rw [if_pos (by simp)]
    unfold parseFmtYmd
    rw [hy, hscan]
    have hexp : expectChar '-' ('/' :: r) = none := by
      simp only [expectChar]
      rw [if_neg (by decide)]
    simp [hexp]

/-- Consequence for the full parser: a string accepted by `%m/%d/%Y` parses
to the `%m/%d/%Y` reading, never the `%d/%m/%Y` one. -/
theorem parse_calendar_date_of_mdy {s : String} {d2 : NDate}
    (h : parseFmtMdy s = some d2) : parse_calendar_date s = some d2 := by
  unfold parse_calendar_date
  rw [parseFmtYmd_none_of_mdy h, h]

/-! ### Column resolver lemmas -/

theorem position_eq_none_iff {α : Type} {p : α → Bool} : ∀ {l : List α},
    position p l = none ↔ ∀ x ∈ l, p x = false := by
  intro l
  induction l with
  | nil => simp [position]
  | cons x xs ih =>
    simp only [position]
    by_cases hx : p x = true
    · rw [if_pos hx]
      simp [hx]
    · rw [if_neg hx]
      rw [Option.map_eq_none']
      constructor
      · intro h y hy
        rcases List.mem_cons.mp hy with rfl | hy
        · simpa using hx
        · exact ih.mp h y hy
      · intro h
        exact ih.mpr (fun y hy => h y (List.mem_cons_of_mem x hy))

theorem find_index_snd (headers : List String) (name : String) (missing : List String) :
    (find_index headers name missing).2 =
      missing ++ (if name ∈ headers then [] else [name]) := by
  unfold find_index
  rcases hp : position (fun h => h == name) headers with _ | i
  · have hmem : ¬ name ∈ headers := by
      intro hmem
      have h2 := position_eq_none_iff.mp hp name hmem
      simp at h2
    simp only [hp]
    rw [if_neg hmem]
  · have hmem : name ∈ headers := by
      by_contra hn
      rw [position_eq_none_iff.mpr (fun x hx => by
        simp only [beq_eq_false_iff_ne, Ne]
        exact fun hc => hn (hc ▸ hx))] at hp
      cases hp
    simp only [hp]
    rw [if_pos hmem]
    simp

theorem foldl_locate_snd (headers : List String) : ∀ (names : List String)
    (acc : List Nat × List String),
    (names.foldl (fun (acc : List Nat × List String) name =>
      let im := find_index headers name acc.2
      (acc.1 ++ [im.1], im.2)) acc).2
    = acc.2 ++ names.filter (fun n => !decide (n ∈ headers)) := by
  intro names
  induction names with
  | nil =>
    intro acc
    simp
  | cons n rest ih =>
    intro acc
    show (rest.foldl _ (acc.1 ++ [(find_index headers n acc.2).1],
      (find_index headers n acc.2).2)).2 = _
    rw [ih, find_index_snd]
    by_cases hmem : n ∈ headers
    · simp [List.filter_cons, hmem]
    · simp [List.filter_cons, hmem]

theorem dedupAdj_sublist : ∀ l : List String, (dedupAdj l).Sublist l
  | [] => List.Sublist.refl []
  | [a] => List.Sublist.refl [a]
  | a :: b :: t => by
    show (if a = b then dedupAdj (b :: t) else a :: dedupAdj (b :: t)).Sublist (a :: b :: t)
    by_cases hab : a = b
    · rw [if_pos hab]
      exact (dedupAdj_sublist (b :: t)).cons a
    · rw [if_neg hab]
      exact (dedupAdj_sublist (b :: t)).cons₂ a

theorem mem_dedupAdj_of_mem : ∀ (l : List String) (x : String), x ∈ l → x ∈ dedupAdj l
  | [], x, hx => absurd hx (List.not_mem_nil x)
  | [a], x, hx => by simpa [dedupAdj] using hx
  | a :: b :: t, x, hx => by
    show x ∈ (if a = b then dedupAdj (b :: t) else a :: dedupAdj (b :: t))
    by_cases hab : a = b
    · rw [if_pos hab]
      rcases List.mem_cons.mp hx with rfl | hx
      · exact mem_dedupAdj_of_mem (b :: t) x (hab ▸ List.mem_cons_self b t)
      · exact mem_dedupAdj_of_mem (b :: t) x hx
    · rw [if_neg hab]
      rcases List.mem_cons.mp hx with rfl | hx
      · exact List.mem_cons_self x _
      · exact List.mem_cons_of_mem a (mem_dedupAdj_of_mem (b :: t) x hx)

theorem mem_dedupAdj {l : List String} {x : String} : x ∈ dedupAdj l ↔ x ∈ l :=
  ⟨fun h => (dedupAdj_sublist l).subset h, mem_dedupAdj_of_mem l x⟩

theorem sortStrings_perm (l : List String) : List.Perm (sortStrings l) l :=
  List.perm_insertionSort _ l

/-- The accumulated missing-name list of the column resolver is exactly the
required names absent from the header, in lookup order. -/
theorem locate_missing_eq (headers : List String) :
    (requiredColumnNames.foldl (fun (acc : List Nat × List String) name =>
      let im := find_index headers name acc.2
      (acc.1 ++ [im.1], im.2)) ([], [])).2
    = requiredColumnNames.filter (fun n => !decide (n ∈ headers)) := by
  rw [foldl_locate_snd]
  rfl

theorem requiredColumnNames_nodup : requiredColumnNames.Nodup := by decide

/-! ### Nonnegativity machinery for the weekly averages -/

/-- A finite, nonnegative model value. -/
def FNN (x : F64) : Prop := ∃ q : ℚ, x = F64.fin q ∧ 0 ≤ q

theorem FNN_add {a b : F64} (ha : FNN a) (hb : FNN b) : FNN (a + b) := by
  rcases ha with ⟨qa, rfl, ha⟩
  rcases hb with ⟨qb, rfl, hb⟩
  exact ⟨qa + qb, rfl, add_nonneg ha hb⟩

theorem FNN_mul {a b : F64} (ha : FNN a) (hb : FNN b) : FNN (a * b) := by
  rcases ha with ⟨qa, rfl, ha⟩
  rcases hb with ⟨qb, rfl, hb⟩
  exact ⟨qa * qb, rfl, mul_nonneg ha hb⟩

theorem FNN_div_pos {a : F64} {c : ℚ} (ha : FNN a) (hc : 0 < c) :
    FNN (a / F64.fin c) := by
  rcases ha with ⟨q, rfl, hq⟩
  refine ⟨q / c, ?_, div_nonneg hq hc.le⟩
  show (if c = 0 then (if q = 0 then F64.nan else if 0 < q then F64.inf else F64.ninf)
      else F64.fin (q / c)) = F64.fin (q / c)
  rw [if_neg (ne_of_gt hc)]

theorem FNN_foldl_add : ∀ (l : List F64) (z : F64), FNN z → (∀ x ∈ l, FNN x) →
    FNN (l.foldl F64.add z) := by
  intro l
  induction l with
  | nil => intro z hz _; exact hz
  | cons x xs ih =>
    intro z hz h
    exact ih (F64.add z x) (FNN_add hz (h x (List.mem_cons_self x xs)))
      (fun y hy => h y (List.mem_cons_of_mem x hy))

theorem FNN_Fsum {l : List F64} (h : ∀ x ∈ l, FNN x) : FNN (Fsum l) :=
  FNN_foldl_add l (F64.fin 0) ⟨0, rfl, le_refl 0⟩ h

/-- Boolean test that all five numeric fields of a day-record are finite and
nonnegative. -/
def dayNN (day : DayMetrics) : Bool :=
  day.sleep_minutes.isNNfin && day.total_in_min.isNNfin && day.total_lig_min.isNNfin &&
    day.total_mod_min.isNNfin && day.total_vig_min.isNNfin

theorem FNN_of_isNNfin {x : F64} (h : x.isNNfin = true) : FNN x := by
  cases x with
  | fin q => exact ⟨q, rfl, by simpa [F64.isNNfin] using h⟩
  | nan => simp [F64.isNNfin] at h
  | inf => simp [F64.isNNfin] at h
  | ninf => simp [F64.isNNfin] at h

theorem dayHours_FNN {day : DayMetrics} (h : dayNN day = true) (i : Fin 5) :
    FNN (dayHours day i) := by
  have h5 : day.sleep_minutes.isNNfin = true ∧ day.total_in_min.isNNfin = true ∧
      day.total_lig_min.isNNfin = true ∧ day.total_mod_min.isNNfin = true ∧
      day.total_vig_min.isNNfin = true := by
    simpa [dayNN, Bool.and_eq_true, and_assoc] using h
  fin_cases i
  · exact FNN_div_pos (FNN_of_isNNfin h5.1) (by norm_num)
  · exact FNN_div_pos (FNN_of_isNNfin h5.2.1) (by norm_num)
  · exact FNN_div_pos (FNN_of_isNNfin h5.2.2.1) (by norm_num)
  · exact FNN_div_pos (FNN_of_isNNfin h5.2.2.2.1) (by norm_num)
  · exact FNN_div_pos (FNN_of_isNNfin h5.2.2.2.2) (by norm_num)

theorem mem_validGroups_src {data : List (String × List DayMetrics)}
    {g : List DayMetrics} (hg : g ∈ validGroups data) : ∃ p ∈ data, g = p.2 := by
  simp only [validGroups, List.mem_filter, List.mem_map] at hg
  rcases hg.1 with ⟨p, hp, rfl⟩
  exact ⟨p, hp, rfl⟩

theorem weeklyAvg_FNN {data : List (String × List DayMetrics)}
    (hne : validGroups data ≠ [])
    (hNN : ∀ p ∈ data, ∀ day ∈ p.2, dayNN day = true) (i : Fin 5) :
    FNN (weeklyAvgOf data i) := by
  rw [weeklyAvgOf_eq]
  apply FNN_mul
  · apply FNN_div_pos
    · apply FNN_Fsum
      intro x hx
      rcases List.mem_map.mp hx with ⟨g, hg, rfl⟩
      apply FNN_Fsum
      intro y hy
      rcases List.mem_map.mp hy with ⟨day, hday, rfl⟩
      have hdayg : day ∈ g := windowOf_subset day hday
      rcases mem_validGroups_src hg with ⟨p, hp, rfl⟩
      exact dayHours_FNN (hNN p hp day hdayg) i
    · have hl : 0 < (validGroups data).length := List.length_pos.mpr hne
      exact_mod_cast hl
  · have hd : (0 : ℚ) < ((daysToUse data : ℚ)) := by
      exact_mod_cast daysToUse_pos hne
    exact FNN_div_pos ⟨7, rfl, by norm_num⟩ hd

/-! ### The per-weekday output rows, characterized -/

theorem weekdayRow_eq (data : List (String × List DayMetrics)) (w : Weekday) :
    weekdayRow data w =
      if pooledCount data w = 0 then none
      else some (w, pooledSleepSum data w / F64.fin ((pooledCount data w : ℚ))) := by
  unfold weekdayRow
  rw [weekdayTotals_eq]
  by_cases hz : pooledCount data w = 0
  · rw [if_pos hz, if_pos hz]
  · rw [if_neg hz, if_neg hz]
    show (if 0 < pooledCount data w then
        some (w, pooledSleepSum data w / F64.fin ((pooledCount data w : ℚ))) else none) = _
    rw [if_pos (Nat.pos_of_ne_zero hz)]

theorem weekdayRow_fst {data : List (String × List DayMetrics)} {w : Weekday}
    {p : Weekday × F64} (h : weekdayRow data w = some p) : p.1 = w := by
  rw [weekdayRow_eq] at h
  by_cases hz : pooledCount data w = 0
  · rw [if_pos hz] at h
    cases h
  · rw [if_neg hz] at h
    rw [← Option.some.inj h]

theorem map_fst_filterMap_sublist {f : Weekday → Option (Weekday × F64)}
    (hf : ∀ w p, f w = some p → p.1 = w) :
    ∀ l : List Weekday, ((l.filterMap f).map Prod.fst).Sublist l := by
  intro l
  induction l with
  | nil => simp
  | cons w rest ih =>
    rcases hfw : f w with _ | p
    · simp only [List.filterMap_cons, hfw]
      exact ih.cons w
    · simp only [List.filterMap_cons, hfw, List.map_cons, hf w p hfw]
      exact ih.cons₂ w

theorem mem_sleepByWeekdayOf {data : List (String × List DayMetrics)}
    {w : Weekday} {h2 : F64} :
    (w, h2) ∈ sleepByWeekdayOf data ↔
      (0 < pooledCount data w ∧
       h2 = pooledSleepSum data w / F64.fin ((pooledCount data w : ℚ))) := by
  unfold sleepByWeekdayOf
  rw [List.mem_filterMap]
  constructor
  · rintro ⟨w', _, hf⟩
    rw [weekdayRow_eq] at hf
    by_cases hz : pooledCount data w' = 0
    · rw [if_pos hz] at hf
      cases hf
    · rw [if_neg hz] at hf
      simp only [Option.some_inj, Prod.mk.injEq] at hf
      obtain ⟨rfl, rfl⟩ := hf
      exact ⟨Nat.pos_of_ne_zero hz, rfl⟩
  · rintro ⟨hc, rfl⟩
    refine ⟨w, ?_, ?_⟩
    · cases w <;> simp [WEEKDAY_ORDER]
    · rw [weekdayRow_eq, if_neg (Nat.pos_iff_ne_zero.mp hc)]

/-! ### Chronological reading of the date comparison -/

theorem dateCmp_lt_iff {x y : NDate} :
    dateCmp x y = .lt ↔
      (x.year < y.year ∨ (x.year = y.year ∧
        (x.month < y.month ∨ (x.month = y.month ∧ x.day < y.day)))) := by
  unfold dateCmp
  rcases h1 : intCmp x.year y.year with _ | _ | _ <;>
    rcases h2 : natCmp x.month y.month with _ | _ | _ <;>
      rcases h3 : natCmp x.day y.day with _ | _ | _ <;>
        simp_all [intCmp_lt_iff, intCmp_eq_iff, intCmp_gt_iff,
          natCmp_lt_iff, natCmp_eq_iff, natCmp_gt_iff] <;> omega

/-! ### Congruence of the aggregate in the retained groups -/

theorem validGroups_cons_nil (k : String) (data : List (String × List DayMetrics)) :
    validGroups ((k, []) :: data) = validGroups data := by
  simp [validGroups]

theorem mkSummary_congr {data₁ data₂ : List (String × List DayMetrics)}
    (h : validGroups data₁ = validGroups data₂) : mkSummary data₁ = mkSummary data₂ := by
  have hd : daysToUse data₁ = daysToUse data₂ := by
    unfold daysToUse
    rw [h]
  have hp : perIdTotals data₁ = perIdTotals data₂ := by
    unfold perIdTotals
    rw [h, hd]
  unfold mkSummary weeklyAvgOf weeklyMvpaOf sleepByWeekdayOf weekdayRow sumsOf
  simp only [h, hd, hp]

theorem compute_congr {data₁ data₂ : List (String × List DayMetrics)}
    (h : validGroups data₁ = validGroups data₂) :
    compute_weekly_summary data₁ = compute_weekly_summary data₂ := by
  by_cases hne : validGroups data₁ = []
  · rw [compute_none_of_nil hne, compute_none_of_nil (h.symm.trans hne)]
  · rw [compute_some_of_ne_nil hne,
      compute_some_of_ne_nil (fun hc => hne (h.trans hc)), mkSummary_congr h]

/-! ### Concrete inputs used by the examples and witnesses -/

/-- One participant-day with sleep 480, inactive 600, light 120, moderate 30,
vigorous 10 minutes (the worked example of the specification). -/
def day0 : DayMetrics :=
  ⟨"p", "2024-03-04", "Monday", F64.fin 600, F64.fin 120, F64.fin 30, F64.fin 10, F64.fin 480⟩

/-- One participant with seven identical days. -/
def dataC1 : List (String × List DayMetrics) := [("p", List.replicate 7 day0)]

/-- The summary computed on `dataC1`. -/
def summC1 : WeeklySummary := (compute_weekly_summary dataC1).getD default

/-- Three participants with day-counts 5, 7 and 3. -/
def dataC2 : List (String × List DayMetrics) :=
  [("a", List.replicate 5 day0), ("b", List.replicate 7 day0), ("c", List.replicate 3 day0)]

/-- A record whose parsed date (Monday 2024-03-04) conflicts with its
free-text weekday label. -/
def dayC6 : DayMetrics :=
  ⟨"p", "2024-03-04", "Friday", F64.fin 0, F64.fin 0, F64.fin 0, F64.fin 0, F64.fin 0⟩

/-- Two records with parseable, distinct dates. -/
def recA : DayMetrics :=
  ⟨"p", "2024-03-04", "", F64.fin 0, F64.fin 0, F64.fin 0, F64.fin 0, F64.fin 0⟩

def recB : DayMetrics :=
  ⟨"p", "2024-03-05", "", F64.fin 0, F64.fin 0, F64.fin 0, F64.fin 0, F64.fin 0⟩

/-- A day-record with a negative sleep duration (accepted by the extractor,
which performs no range validation). -/
def dayNeg : DayMetrics :=
  ⟨"p", "2024-03-04", "Monday", F64.fin 600, F64.fin 120, F64.fin 30, F64.fin 10,
   F64.fin (-480)⟩

def dataC9 : List (String × List DayMetrics) := [("p", [dayNeg])]

def summC9 : WeeklySummary := (compute_weekly_summary dataC9).getD default

/-! ### The claims -/

/-- C1: for every input that yields a summary, each weekly_hours entry is the
arithmetic mean across participants of that participant's sum of minutes/60
over its retained window, rescaled by 7/days_to_use; weekly_mvpa_minutes is
the identically rescaled mean of the per-participant moderate+vigorous minute
totals; the daily figures are the weekly figures divided by 7; and
daily_sedentary_hours is max(0, daily_inactive - daily_sleep).  On one
participant with seven identical days (sleep 480, inactive 600, light 120,
moderate 30, vigorous 10 minutes) the weekly hours are [56, 70, 14, 3.5, 7/6]
(7/6 ≈ 1.17), weekly MVPA is 280 minutes, and daily sedentary hours is 2. -/
theorem C1_weekly_summary_formulas :
    ∀ (data : List (String × List DayMetrics)) (s : WeeklySummary),
      compute_weekly_summary data = some s →
      ((∀ i : Fin 5, s.average_hours i =
          Fsum ((validGroups data).map (fun g => participantHourSum (daysToUse data) g i)) /
              F64.fin ((validGroups data).length : ℚ) *
            (F64.fin 7 / F64.fin ((daysToUse data : ℚ)))) ∧
       (s.weekly_mvpa_minutes =
          Fsum ((validGroups data).map (participantMvpaSum (daysToUse data))) /
              F64.fin ((validGroups data).length : ℚ) *
            (F64.fin 7 / F64.fin ((daysToUse data : ℚ)))) ∧
       (∀ i : Fin 5, s.daily_average_hours i = s.average_hours i / F64.fin 7) ∧
       (s.daily_mvpa_minutes = s.weekly_mvpa_minutes / F64.fin 7) ∧
       (s.daily_sedentary_hours =
          F64.maxF (s.daily_average_hours 1 - s.daily_average_hours 0) (F64.fin 0)) ∧
       (compute_weekly_summary dataC1 = some summC1 ∧
        summC1.average_hours 0 = F64.fin 56 ∧
        summC1.average_hours 1 = F64.fin 70 ∧
        summC1.average_hours 2 = F64.fin 14 ∧
        summC1.average_hours 3 = F64.fin (7 / 2) ∧
        summC1.average_hours 4 = F64.fin (7 / 6) ∧
        |(7 : ℚ) / 6 - 117 / 100| < 1 / 100 ∧
        summC1.weekly_mvpa_minutes = F64.fin 280 ∧
        summC1.daily_sedentary_hours = F64.fin 2)) := by
  intro data s h
  obtain ⟨hne, rfl⟩ := compute_eq_some_iff.mp h
  refine ⟨fun i => weeklyAvgOf_eq data i, weeklyMvpaOf_eq data, fun i => rfl, rfl, rfl,
    by with_unfolding_all rfl, ?_, ?_, ?_, ?_, ?_, ?_, ?_, ?_⟩
  · with_unfolding_all decide
  · with_unfolding_all decide
  · with_unfolding_all decide
  · with_unfolding_all decide
  · with_unfolding_all decide
  · with_unfolding_all decide
  · with_unfolding_all decide
  · with_unfolding_all decide

/-- Witness for C1 at the concrete seven-identical-days input. -/
theorem C1_weekly_summary_formulas_witness :
    summC1.daily_mvpa_minutes = summC1.weekly_mvpa_minutes / F64.fin 7 :=
  (C1_weekly_summary_formulas dataC1 summC1 (by with_unfolding_all rfl)).2.2.2.1

/-- C2: days_to_use is min(7, minimum day-count over the non-empty groups);
each participant contributes exactly the first days_to_use records of its
date-ascending sorted sequence, so replacing every group by that sorted
prefix leaves the summary unchanged; and for day-counts 5, 7, 3 the common
window is 3 days. -/
theorem C2_common_window :
    ∀ data : List (String × List DayMetrics), validGroups data ≠ [] →
      (daysToUse data = Nat.min 7 (listMin ((validGroups data).map List.length)) ∧
       (∀ g ∈ validGroups data,
          participantTotals (daysToUse data) g =
            participantTotals (daysToUse data)
              ((sort_metrics_by_date g).take (daysToUse data))) ∧
       compute_weekly_summary (truncData data) = compute_weekly_summary data ∧
       daysToUse dataC2 = 3) := by
  intro data hne
  refine ⟨Nat.min_comm _ 7, ?_, compute_trunc hne, by decide⟩
  intro g _
  exact (participantTotals_window (daysToUse data) g).symm

/-- Witness for C2 at the 5/7/3-day input. -/
theorem C2_common_window_witness :
    compute_weekly_summary (truncData dataC2) = compute_weekly_summary dataC2 :=
  (C2_common_window dataC2 (by decide)).2.2.1

/-- C3: the aggregator returns none exactly when no participant has a
day-record; whenever some participant has one, a complete summary is
returned; and a participant with an empty group is ignored entirely (it
changes nothing, in particular it does not force days_to_use to zero). -/
theorem C3_none_iff_no_data :
    ∀ data : List (String × List DayMetrics),
      ((compute_weekly_summary data = none ↔ ∀ p ∈ data, p.2 = []) ∧
       ((∃ p ∈ data, p.2 ≠ []) → (compute_weekly_summary data).isSome = true) ∧
       (∀ k : String,
          compute_weekly_summary ((k, []) :: data) = compute_weekly_summary data)) := by
  intro data
  refine ⟨compute_eq_none_iff data, ?_, ?_⟩
  · rintro ⟨p, hp, hne⟩
    rcases hs : compute_weekly_summary data with _ | s
    · exact absurd ((compute_eq_none_iff data).mp hs p hp) hne
    · rfl
  · intro k
    exact compute_congr (validGroups_cons_nil k data)

/-- Witness for C3 at an input with one non-empty participant. -/
theorem C3_none_iff_no_data_witness :
    (compute_weekly_summary dataC1).isSome = true :=
  (C3_none_iff_no_data dataC1).2.1 ⟨("p", List.replicate 7 day0), by decide, by decide⟩

/-- C4: the day-record comparison implements exactly the three-way order:
two parseable dates compare chronologically ascending, a parseable date
sorts before an unparseable one, and two unparseable dates compare by raw
lexical string comparison. -/
theorem C4_compare_metrics_contract :
    ∀ a b : DayMetrics,
      ((∀ da db, parse_calendar_date a.calendar_date = some da →
          parse_calendar_date b.calendar_date = some db →
          (compare_metrics a b = dateCmp da db ∧
           (dateCmp da db = .lt ↔
             (da.year < db.year ∨ (da.year = db.year ∧
               (da.month < db.month ∨ (da.month = db.month ∧ da.day < db.day))))))) ∧
       (∀ da, parse_calendar_date a.calendar_date = some da →
          parse_calendar_date b.calendar_date = none → compare_metrics a b = .lt) ∧
       (∀ db, parse_calendar_date a.calendar_date = none →
          parse_calendar_date b.calendar_date = some db → compare_metrics a b = .gt) ∧
       (parse_calendar_date a.calendar_date = none →
          parse_calendar_date b.calendar_date = none →
          compare_metrics a b = strCmp a.calendar_date b.calendar_date)) := by
  intro a b
  refine ⟨?_, ?_, ?_, ?_⟩
  · intro da db hda hdb
    refine ⟨?_, dateCmp_lt_iff⟩
    unfold compare_metrics
    rw [hda, hdb]
  · intro da hda hdb
    unfold compare_metrics
    rw [hda, hdb]
  · intro db hda hdb
    unfold compare_metrics
    rw [hda, hdb]
  · intro hda hdb
    unfold compare_metrics
    rw [hda, hdb]

/-- Witness for C4 at two records with parseable, distinct dates. -/
theorem C4_compare_metrics_contract_witness :
    compare_metrics recA recB = dateCmp ⟨2024, 3, 4⟩ ⟨2024, 3, 5⟩ :=
  (((C4_compare_metrics_contract recA recB).1 ⟨2024, 3, 4⟩ ⟨2024, 3, 5⟩
    (by decide) (by decide))).1

/-- C5: the date parser attempts YYYY-MM-DD, MM/DD/YYYY, DD/MM/YYYY in that
order and returns the first success; hence "2024-03-04" parses to 2024-03-04
and any input accepted by MM/DD/YYYY — in particular "03/04/2024", which both
slash formats accept — parses as MM/DD/YYYY (March 4, 2024), never as
DD/MM/YYYY. -/
theorem C5_date_format_priority :
    ∀ (s : String) (d2 : NDate), parseFmtMdy s = some d2 →
      (parse_calendar_date s = some d2 ∧
       (∀ t : String, parse_calendar_date t =
          (match parseFmtYmd t with
           | some date => some date
           | none =>
             match parseFmtMdy t with
             | some date => some date
             | none => parseFmtDmy t)) ∧
       parse_calendar_date "2024-03-04" = some ⟨2024, 3, 4⟩ ∧
       parse_calendar_date "03/04/2024" = some ⟨2024, 3, 4⟩ ∧
       parseFmtMdy "03/04/2024" = some ⟨2024, 3, 4⟩ ∧
       parseFmtDmy "03/04/2024" = some ⟨2024, 4, 3⟩) := by
  intro s d2 h
  exact ⟨parse_calendar_date_of_mdy h, fun t => rfl, by decide, by decide, by decide, by decide⟩

/-- Witness for C5 at the ambiguous slash date. -/
theorem C5_date_format_priority_witness :
    parse_calendar_date "03/04/2024" = some ⟨2024, 3, 4⟩ :=
  (C5_date_format_priority "03/04/2024" ⟨2024, 3, 4⟩ (by decide)).1

/-- C6: the weekday of a record is derived from the parsed calendar date
whenever the date parses, ignoring the free-text label, and the label is
consulted only when the date does not parse; date 2024-03-04 (a Monday) with
label "Friday" resolves to Monday. -/
theorem C6_weekday_preference :
    ∀ day : DayMetrics,
      ((∀ d, parse_calendar_date day.calendar_date = some d →
          determine_weekday day = some d.weekday) ∧
       (parse_calendar_date day.calendar_date = none →
          determine_weekday day = parse_weekday_name day.weekday) ∧
       determine_weekday dayC6 = some Weekday.mon ∧
       dayC6.calendar_date = "2024-03-04" ∧
       dayC6.weekday = "Friday" ∧
       parse_weekday_name dayC6.weekday = some Weekday.fri) := by
  intro day
  refine ⟨?_, ?_, by decide, rfl, rfl, by with_unfolding_all decide⟩
  · intro d hd
    unfold determine_weekday
    rw [hd]
  · intro hd
    unfold determine_weekday
    rw [hd]

/-- Witness for C6 at the conflicting-label record. -/
theorem C6_weekday_preference_witness :
    determine_weekday dayC6 = some (NDate.mk 2024 3 4).weekday :=
  (C6_weekday_preference dayC6).1 ⟨2024, 3, 4⟩ (by decide)

/-- C7: column resolution succeeds exactly when all eight required names
occur in the header under exact case-sensitive equality; on failure every
missing name is reported exactly once, and no column map is produced. -/
theorem C7_column_resolver :
    ∀ headers : List String,
      (((∃ cl, locate_required_columns headers = Except.ok cl) ↔
         ∀ n ∈ requiredColumnNames, n ∈ headers) ∧
       (∀ e, locate_required_columns headers = Except.error e →
         (e.Nodup ∧ ∀ n : String, n ∈ e ↔ (n ∈ requiredColumnNames ∧ n ∉ headers)))) := by
  intro headers
  have hm := locate_missing_eq headers
  constructor
  · constructor
    · rintro ⟨cl, hok⟩ n hn
      by_contra hmem
      have hne : requiredColumnNames.filter (fun n => !decide (n ∈ headers)) ≠ [] := by
        intro hc
        rw [List.filter_eq_nil_iff] at hc
        have h2 := hc n hn
        simp at h2
        exact hmem h2
      unfold locate_required_columns at hok
      simp only [hm] at hok
      rw [if_neg hne] at hok
      cases hok
    · intro hall
      have hnil : requiredColumnNames.filter (fun n => !decide (n ∈ headers)) = [] :=
        List.filter_eq_nil_iff.mpr (fun a ha => by simp [hall a ha])
      rcases hres : locate_required_columns headers with e | cl
      · unfold locate_required_columns at hres
        simp only [hm] at hres
        rw [if_pos hnil] at hres
        cases hres
      · exact ⟨cl, rfl⟩
  · intro e he
    unfold locate_required_columns at he
    simp only [hm] at he
    by_cases hnil : requiredColumnNames.filter (fun n => !decide (n ∈ headers)) = []
    · rw [if_pos hnil] at he
      cases he
    · rw [if_neg hnil] at he
      have he2 : dedupAdj (sortStrings
          (requiredColumnNames.filter (fun n => !decide (n ∈ headers)))) = e := by
        injection he
      subst he2
      constructor
      · have hnod : (sortStrings
            (requiredColumnNames.filter (fun n => !decide (n ∈ headers)))).Nodup :=
          (sortStrings_perm _).nodup_iff.mpr
            (List.Nodup.filter _ requiredColumnNames_nodup)
        exact List.Nodup.sublist (dedupAdj_sublist _) hnod
      · intro n
        rw [mem_dedupAdj, (sortStrings_perm _).mem_iff, List.mem_filter]
        simp

/-- Error value reported on a header containing only the ID column. -/
def eC7 : List String :=
  ["calendar_date", "dur_day_total_IN_min", "dur_day_total_LIG_min",
   "dur_day_total_MOD_min", "dur_day_total_VIG_min", "dur_spt_min", "weekday"]

/-- Witness for C7 at a header containing only the ID column. -/
theorem C7_column_resolver_witness :
    eC7.Nodup ∧
      ("weekday" ∈ eC7 ↔
        ("weekday" ∈ requiredColumnNames ∧ "weekday" ∉ (["ID"] : List String))) :=
  ⟨((C7_column_resolver ["ID"]).2 eC7 (by with_unfolding_all rfl)).1,
   ((C7_column_resolver ["ID"]).2 eC7 (by with_unfolding_all rfl)).2 "weekday"⟩

/-- C8: the per-weekday sleep report lists weekdays in Monday-to-Sunday
order, contains exactly the weekdays with at least one contributing retained
day, and each reported value is the pooled mean sleep-hours over all retained
days of all participants resolving to that weekday. -/
theorem C8_sleep_by_weekday :
    ∀ (data : List (String × List DayMetrics)) (s : WeeklySummary),
      compute_weekly_summary data = some s →
      (((s.average_sleep_by_weekday.map Prod.fst).Sublist WEEKDAY_ORDER) ∧
       (∀ (w : Weekday) (h2 : F64), (w, h2) ∈ s.average_sleep_by_weekday ↔
          (0 < pooledCount data w ∧
           h2 = pooledSleepSum data w / F64.fin ((pooledCount data w : ℚ))))) := by
  intro data s h
  obtain ⟨hne, rfl⟩ := compute_eq_some_iff.mp h
  constructor
  · exact map_fst_filterMap_sublist (fun w p => weekdayRow_fst) WEEKDAY_ORDER
  · intro w h2
    exact mem_sleepByWeekdayOf

/-- Witness for C8 at the seven-identical-days input. -/
theorem C8_sleep_by_weekday_witness :
    (summC1.average_sleep_by_weekday.map Prod.fst).Sublist WEEKDAY_ORDER :=
  (C8_sleep_by_weekday dataC1 summC1 (by with_unfolding_all rfl)).1

/-- C9 counterexample: a participant-day with a negative sleep duration
(which the extractor admits: no range validation is performed) produces a
summary whose sleep entry is -56 hours, so weekly_hours is not entrywise
nonnegative as the claim states. -/
theorem C9_counterexample :
    compute_weekly_summary dataC9 = some summC9 ∧
    summC9.average_hours 0 = F64.fin (-56) ∧
    F64.ge0 (summC9.average_hours 0) = false := by
  refine ⟨by with_unfolding_all rfl, ?_, ?_⟩
  · with_unfolding_all decide
  · with_unfolding_all decide

/-- C9 (amended): if every numeric field of every day-record is finite and
nonnegative, then each of the five weekly_hours entries of a produced summary
is a finite nonnegative value. -/
theorem C9_weekly_hours_nonneg :
    ∀ (data : List (String × List DayMetrics)) (s : WeeklySummary),
      compute_weekly_summary data = some s →
      (∀ p ∈ data, ∀ day ∈ p.2, dayNN day = true) →
      ∀ i : Fin 5, ∃ q : ℚ, s.average_hours i = F64.fin q ∧ 0 ≤ q := by
  intro data s h hNN i
  obtain ⟨hne, rfl⟩ := compute_eq_some_iff.mp h
  exact weeklyAvg_FNN hne hNN i

/-- Witness for the amended C9 at the seven-identical-days input. -/
theorem C9_weekly_hours_nonneg_witness :
    ∃ q : ℚ, summC1.average_hours 0 = F64.fin q ∧ 0 ≤ q :=
  C9_weekly_hours_nonneg dataC1 summC1 (by with_unfolding_all rfl)
    (by with_unfolding_all decide) 0

/-! ### Inputs showing that non-finite numeric tokens are accepted -/

def goodHeaders : List String := requiredColumnNames

def clC10 : ColumnLookup := ⟨0, 1, 2, [4, 5, 6, 7], 3⟩

def rowNan : List String :=
  ["p1", "2024-03-04", "Monday", "NaN", "600", "120", "30", "10"]

def dayNan : DayMetrics :=
  ⟨"p1", "2024-03-04", "Monday", F64.fin 600, F64.fin 120, F64.fin 30, F64.fin 10, F64.nan⟩

def dataC10 : List (String × List DayMetrics) := [("p1", [dayNan])]

def summC10 : WeeklySummary := (compute_weekly_summary dataC10).getD default

/-- C10: the numeric-field parser accepts the tokens NaN, inf and -inf (the
row is not skipped); a full row whose sleep field is "NaN" extracts to a
validated day-record carrying NaN, and that record propagates NaN into the
weekly summary figures. -/
theorem C10_nonfinite_tokens_accepted :
    parse_f64_field (some "NaN") = some F64.nan ∧
    parse_f64_field (some "inf") = some F64.inf ∧
    parse_f64_field (some "-inf") = some F64.ninf ∧
    locate_required_columns goodHeaders = Except.ok clC10 ∧
    extract_metrics_from_record rowNan clC10 = some dayNan ∧
    compute_weekly_summary dataC10 = some summC10 ∧
    summC10.average_hours 0 = F64.nan := by
  refine ⟨?_, ?_, ?_, ?_, ?_, by with_unfolding_all rfl, ?_⟩
  · with_unfolding_all decide
  · with_unfolding_all decide
  · with_unfolding_all decide
  · with_unfolding_all rfl
  · with_unfolding_all rfl
  · with_unfolding_all decide
